import Mathlib

set_option maxHeartbeats 1600000

/-!
A shallow embedding of the regex compiler and matcher core of `regexJIT.c`
(the sljit regex JIT), together with proofs about it.

Conventions of the embedding:
* `regex_char_t` values are modelled as `Nat` (the C type is an unsigned
  8- or 16-bit character); C `int` and `sljit_w` values are modelled as `Int`.
* The parser's term stack (`struct stack`) is modelled as a Lean list with the
  top of the stack at the head; `stack_push` is `List.cons`.
* `SLJIT_MALLOC` is modelled as always succeeding, so the
  `REGEX_MEMORY_ERROR` paths of the C code are unreachable in the model.
* The code generator emits machine code; the emitted code fragments that the
  claims are about (the best-match update and state-clearing loop of
  `compile_end_check`, the insertion logic of `compile_cond_tran`, the init
  stub built from `compile_uncond_tran`) are embedded as functions on the
  runtime state they manipulate, following the emitted instruction sequences.
  `SLJIT_SET_U` comparisons are unsigned machine-word comparisons; they are
  modelled by comparing values reduced modulo `2 ^ 64` (`uns` below), the
  word size being irrelevant to the claims beyond `-1` being the largest
  unsigned value.
-/

/-- The term/instruction kinds of the C enum in regexJIT.c. -/
inductive ttype where
  | type_begin
  | type_end
  | type_char
  | type_id
  | type_rng_start
  | type_rng_end
  | type_rng_char
  | type_rng_left
  | type_rng_right
  | type_branch
  | type_jump
  | type_open_br
  | type_close_br
  | type_select
  | type_asterisk
  | type_plus_sign
  | type_qestion_mark
  deriving DecidableEq, Repr

/-- C `struct stack_item`: a tagged record of a kind and an `int` value. -/
structure stack_item where
  type : ttype
  value : Int
  deriving DecidableEq, Repr

/-- The REGEX_ flag bits, as booleans.  `REGEX_ID_CHECK` (0x20) is set
internally by `generate_search_states`. -/
structure RFlags where
  match_begin : Bool
  match_end : Bool
  non_greedy : Bool
  newline : Bool
  id_check : Bool
  deriving DecidableEq, Repr

/-- The flag set with no bit set. -/
def no_flags : RFlags := ⟨false, false, false, false, false⟩

/-- The unsigned machine-word reading of a signed value: `SLJIT_SET_U`
comparisons in the emitted code compare words as unsigned integers, so `-1`
(the inactive / no-match marker) is the largest value. -/
def uns (x : Int) : Nat := (x % (2 ^ 64)).toNat

/-- C `decode_number`, main loop: consume leading decimal digits,
accumulating the value. -/
def decode_number_go : List Nat → Nat → Nat × List Nat
  | [], v => (v, [])
  | c :: rest, v =>
    if 48 ≤ c ∧ c ≤ 57 then decode_number_go rest (v * 10 + (c - 48))
    else (v, c :: rest)

/-- C `decode_number`: returns `(-1, input unchanged)` when the first
character is not a digit, otherwise the decoded value and the rest of the
input.  (The C version also takes `length`; here the list is exactly the
remaining input.) -/
def decode_number : List Nat → Int × List Nat
  | [] => (-1, [])
  | c :: rest =>
    if 48 ≤ c ∧ c ≤ 57 then
      let p := decode_number_go (c :: rest) 0
      ((p.1 : Int), p.2)
    else (-1, c :: rest)

/-- The size-calculation loop at the top of C `iterate`: walk down the
(cloned) stack until the subexpression under the iterator has been passed.
Returns `(k, len)` where `k` is the number of stack items forming the
subexpression and `len` its encoded size, or `none` where the C code would
pop past the bottom sentinel or trips one of its assertions (impossible for
parser-built stacks). -/
def iterate_len : List stack_item → Nat → Nat → Nat → Option (Nat × Nat)
  | [], _, _, _ => none
  | it :: rest, k, len, depth =>
    match it.type with
    | .type_id => iterate_len rest (k+1) (len+1) depth
    | .type_rng_end => iterate_len rest (k+1) (len+1) depth
    | .type_rng_char => iterate_len rest (k+1) (len+1) depth
    | .type_rng_left => iterate_len rest (k+1) (len+1) depth
    | .type_rng_right => iterate_len rest (k+1) (len+1) depth
    | .type_plus_sign => iterate_len rest (k+1) (len+1) depth
    | .type_qestion_mark => iterate_len rest (k+1) (len+1) depth
    | .type_asterisk => iterate_len rest (k+1) (len+2) depth
    | .type_close_br => iterate_len rest (k+1) len (depth+1)
    | .type_open_br =>
      if depth = 0 then none
      else if depth = 1 then some (k+1, len)
      else iterate_len rest (k+1) len (depth-1)
    | .type_select =>
      if depth = 0 then none else iterate_len rest (k+1) (len+2) depth
    | .type_begin => none
    | .type_end => none
    | _ =>
      -- type_char, type_rng_start (type_branch/type_jump never appear on
      -- the parser stack): the default case of the C switch
      if depth = 0 then some (k+1, len+1) else iterate_len rest (k+1) (len+1) depth

/-- `stack_push_copy(stack, n, n)`: duplicate the top `n` items of the stack
(the general form is only ever called with `items = length` except for the
`(1, count)` call which `iterate` uses to slide an open bracket underneath
the subexpression; that call is modelled directly in `iterate`). -/
def dup_top (n : Nat) (s : List stack_item) : List stack_item := s.take n ++ s

/-- `t` rounds of `dup_top n` (the `while (min > 0)` / `while (max > 0)`
copy loops of C `iterate`). -/
def dup_top_iter : Nat → Nat → List stack_item → List stack_item
  | 0, _, s => s
  | t+1, n, s => dup_top_iter t n (dup_top n s)

/-- C `iterate(stack, min, max)`: rewrite the iterator `{min,max}` on the top
subexpression of the stack.  Returns the new stack together with the `len`
value the C function returns (the change in the predicted program size).
`none` models the unreachable failure of the size-calculation walk.  The C
function receives non-negative bounds at every call site, so they are `Nat`
here. -/
def iterate (s : List stack_item) (mi ma : Nat) : Option (List stack_item × Nat) :=
  match iterate_len s 0 0 0 with
  | none => none
  | some (k, len0) =>
    if mi = 0 ∧ ma = 0 then
      -- {0,0}: delete the subexpression, substitute an empty bracket pair
      some (⟨.type_close_br, 0⟩ :: ⟨.type_open_br, 0⟩ :: s.drop k, len0)
    else
      -- slide an open bracket under the subexpression
      let s1 := s.take k ++ ⟨.type_open_br, 0⟩ :: s.drop k
      let body : List stack_item :=
        if 0 < ma then
          let ma1 := ma - mi
          if 0 < mi then
            let s2 := dup_top_iter (mi - 1) k s1
            if 0 < ma1 then
              dup_top_iter (ma1 - 1) (k+1) (⟨.type_qestion_mark, 0⟩ :: dup_top k s2)
            else s2
          else
            dup_top_iter (ma1 - 1) (k+1) (⟨.type_qestion_mark, 0⟩ :: s1)
        else
          ⟨.type_plus_sign, 0⟩ :: dup_top_iter (mi - 1) k s1
      let len1 : Nat := if 0 < ma then len0 * (ma - 1) + (ma - mi) else len0 * (mi - 1) + 1
      some (⟨.type_close_br, 0⟩ :: body, len1)

/-- The result of C `parse_iterator`: `ok consumed stack dfa_delta` models a
non-negative return (the number of characters before the position the parser
resumes at, the caller consuming one more), `invalid` the `-2` "not a valid
range expression" return, and `memory` the `-1` return (unreachable in the
model). -/
inductive IterResult where
  | ok (consumed : Nat) (stack : List stack_item) (dfa_delta : Int)
  | memory
  | invalid
  deriving DecidableEq, Repr

/-- The right-bound decoding of C `parse_iterator` (entered when `val2` is
still `-1`): returns the corrected `(val1, val2)` and the rest of the input
(positioned at the closing brace), or `none` for the `-2` returns. -/
def parse_iterator_right (val1 : Int) (r : List Nat) : Option (Int × Int × List Nat) :=
  match r with
  | [] => none
  | d :: _ =>
    if d = 125 then some (val1, 0, r)
    else
      let p := decode_number r
      if p.1 < 0 ∨ p.2 = [] ∨ p.2.headD 0 ≠ 125 ∨ p.1 < val1 then none
      else if p.1 = 0 then some (-1, 0, p.2)
      else some (val1, p.1, p.2)

/-- The "fast cases" dispatch at the end of C `parse_iterator`.  `r` is the
rest of the input, positioned at the closing brace; `inp0` the whole input
from the opening brace (used only to compute the return value
`regex_string - base_from`). -/
def parse_iterator_fast (inp0 : List Nat) (stack : List stack_item)
    (val1 val2 : Int) (r : List Nat) : IterResult :=
  let consumed := inp0.length - r.length
  if 1 < val1 ∨ 1 < val2 then
    match iterate stack val1.toNat val2.toNat with
    | none => .memory
    | some (s1, len) => .ok consumed s1 (len : Int)
  else if val1 = 0 ∧ val2 = 0 then .ok consumed (⟨.type_asterisk, 0⟩ :: stack) 2
  else if val1 = 1 ∧ val2 = 0 then .ok consumed (⟨.type_plus_sign, 0⟩ :: stack) 1
  else if val1 = 0 ∧ val2 = 1 then .ok consumed (⟨.type_qestion_mark, 0⟩ :: stack) 1
  else if val1 = -1 then
    match iterate stack 0 0 with
    | none => .memory
    | some (s1, len) => .ok consumed s1 (-(len : Int))
  else .ok consumed stack 0

/-- The tail of C `parse_iterator` after the left bound has been decoded:
the `if (begin) return -2;` check, the right-bound decoding when needed, and
the fast cases. -/
def parse_iterator_tail (inp0 : List Nat) (stack : List stack_item)
    (is_begin : Bool) (val1 val2 : Int) (r : List Nat) : IterResult :=
  if is_begin then .invalid
  else if val2 = -1 then
    match parse_iterator_right val1 r with
    | none => .invalid
    | some (v1, v2, r1) => parse_iterator_fast inp0 stack v1 v2 r1
  else parse_iterator_fast inp0 stack val1 val2 r

/-- C `parse_iterator`: `inp0` is the input positioned at the opening `{` of
the candidate iterator, `is_begin` the parser's "no term yet" flag. -/
def parse_iterator (inp0 : List Nat) (stack : List stack_item)
    (is_begin : Bool) : IterResult :=
  match inp0 with
  | [] => .invalid
  | _ :: inp1 =>
    match inp1 with
    | [] => .invalid
    | c :: r1 =>
      if c = 44 then
        -- leading comma: val1 = 0, val2 still -1
        parse_iterator_tail inp0 stack is_begin 0 (-1) r1
      else
        let p := decode_number (c :: r1)
        if p.1 < 0 then .invalid
        else
          match p.2 with
          | [] => .invalid
          | d :: r3 =>
            if d = 125 then
              -- {n}: val2 = val1; val1 = -1 when n = 0; input stays at the brace
              parse_iterator_tail inp0 stack is_begin
                (if p.1 = 0 then -1 else p.1) p.1 (d :: r3)
            else if d = 33 ∧ r3 ≠ [] ∧ r3.headD 0 = 125 then
              -- {n!}: the non-POSIX id tag
              .ok (inp0.length - (d :: r3).length + 1) (⟨.type_id, p.1⟩ :: stack) 1
            else if d ≠ 44 then .invalid
            else parse_iterator_tail inp0 stack is_begin p.1 (-1) r3

/-- The result of C `parse_char_range`: `ok consumed stack dfa_delta` for a
non-negative return, `invalid` for `-2` (the caller turns it into
`REGEX_INVALID_REGEX`). -/
inductive RangeResult where
  | ok (consumed : Nat) (stack : List stack_item) (dfa_delta : Nat)
  | invalid
  deriving DecidableEq, Repr

/-- One class element of C `parse_char_range`: a literal character or a
backslash escape.  Returns the character and the rest, `none` at end of
input. -/
def pcr_left : List Nat → Option (Nat × List Nat)
  | [] => none
  | c :: r =>
    if c = 92 then
      match r with
      | [] => none
      | d :: r2 => some (d, r2)
    else some (c, r)

/-- The element loop of C `parse_char_range`: stops (successfully) at the
closing `]`, pushing `type_rng_char` terms for single characters and
`type_rng_left`/`type_rng_right` pairs — bounds swapped into order — for
ranges.  Returns the rest of the input (positioned at the `]`), the stack
and the accumulated `dfa_size` increase.  Each iteration consumes at least
one input character, so the fuel passed by `pcr_body` (one more than the
input length) never runs out; fuel exhaustion yields the same `none` as
running off the end of the input. -/
def pcr_loop : Nat → List Nat → List stack_item → Nat →
    Option (List Nat × List stack_item × Nat)
  | 0, _, _, _ => none
  | _, [], _, _ => none
  | fuel + 1, c :: rr, stack, dfa =>
    if c = 93 then some (c :: rr, stack, dfa)
    else
      match pcr_left (c :: rr) with
      | none => none
      | some (left, r1) =>
        if 3 ≤ r1.length ∧ r1.headD 0 = 45 ∧ r1.tail.headD 0 ≠ 93 then
          -- a range: step past the '-', read the right bound, swap into order
          match pcr_left r1.tail with
          | none => none
          | some (right, r3) =>
            pcr_loop fuel r3
              (⟨.type_rng_right, (max left right : Nat)⟩ ::
                ⟨.type_rng_left, (min left right : Nat)⟩ :: stack) (dfa + 2)
        else
          pcr_loop fuel r1 (⟨.type_rng_char, (left : Nat)⟩ :: stack) (dfa + 1)

/-- The body of C `parse_char_range` after the optional `^` has been read:
push `type_rng_start`, handle a leading literal `]`, run the element loop,
append the newline exclusions when required, and push `type_rng_end`. -/
def pcr_body (inp0 : List Nat) (invert append_new_lines : Bool) (r : List Nat)
    (stack : List stack_item) : RangeResult :=
  let stack1 : List stack_item := ⟨.type_rng_start, if invert then 1 else 0⟩ :: stack
  -- dfa_size += 2 for the rng_start & rng_end pair
  let p : List Nat × List stack_item × Nat :=
    if r.headD 0 = 93 then (r.tail, ⟨.type_rng_char, 93⟩ :: stack1, 3) else (r, stack1, 2)
  match pcr_loop (p.1.length + 1) p.1 p.2.1 p.2.2 with
  | none => .invalid
  | some (rEnd, stack3, dfa3) =>
    let stack4 : List stack_item :=
      if append_new_lines then ⟨.type_rng_char, 13⟩ :: ⟨.type_rng_char, 10⟩ :: stack3
      else stack3
    let dfa4 := if append_new_lines then dfa3 + 2 else dfa3
    .ok (inp0.length - rEnd.length) (⟨.type_rng_end, 0⟩ :: stack4) dfa4

/-- C `parse_char_range`: `inp0` is the input positioned at the opening `[`.
A leading `^` inverts the class and, under `REGEX_NEWLINE`, schedules the
newline exclusions. -/
def parse_char_range (inp0 : List Nat) (flags : RFlags)
    (stack : List stack_item) : RangeResult :=
  match inp0 with
  | [] => .invalid
  | _ :: r1 =>
    match r1 with
    | [] => .invalid
    | c :: r2 =>
      if c = 94 then
        match r2 with
        | [] => .invalid
        | _ => pcr_body inp0 true flags.newline r2 stack
      else pcr_body inp0 false false r1 stack

/-- The result of C `parse`: the final term stack (top first), the updated
flags and the predicted program size, or the error code. -/
inductive ParseResult where
  | ok (stack : List stack_item) (flags : RFlags) (dfa_size : Int)
  | invalid
  | memory
  deriving DecidableEq, Repr

/-- What one iteration of the C `parse` loop decides: either return a
result, or continue with the updated input and state. -/
inductive ParseStep where
  | done (r : ParseResult)
  | next (inp : List Nat) (stack : List stack_item) (depth : Nat)
      (is_begin : Bool) (flags : RFlags) (dfa : Int)
  deriving DecidableEq, Repr

/-- One iteration of the C `parse` loop: the `switch` on the current
character `c` (with `rest` the input after it).  `is_begin` is the C `begin`
flag ("no term found yet"), `depth` the bracket depth. -/
def parse_step (c : Nat) (rest : List Nat) (stack : List stack_item)
    (depth : Nat) (is_begin : Bool) (flags : RFlags) (dfa : Int) : ParseStep :=
  if c = 92 then
    -- backslash escape
    match rest with
    | [] => .done .invalid
    | d :: rest2 => .next rest2 (⟨.type_char, (d : Nat)⟩ :: stack) depth false flags (dfa + 1)
  else if c = 46 then
    -- '.': an inverted range, excluding the newline characters when asked
    let stack1 : List stack_item := ⟨.type_rng_start, 1⟩ :: stack
    let stack2 : List stack_item :=
      if flags.newline then ⟨.type_rng_char, 13⟩ :: ⟨.type_rng_char, 10⟩ :: stack1
      else stack1
    let dfa1 := if flags.newline then dfa + 2 else dfa
    .next rest (⟨.type_rng_end, 1⟩ :: stack2) depth false flags (dfa1 + 2)
  else if c = 40 then
    .next rest (⟨.type_open_br, 0⟩ :: stack) (depth + 1) true flags dfa
  else if c = 41 then
    if depth = 0 then .done .invalid
    else .next rest (⟨.type_close_br, 0⟩ :: stack) (depth - 1) false flags dfa
  else if c = 124 then
    .next rest (⟨.type_select, 0⟩ :: stack) depth true flags (dfa + 2)
  else if c = 42 then
    if is_begin then .done .invalid
    else .next rest (⟨.type_asterisk, 0⟩ :: stack) depth is_begin flags (dfa + 2)
  else if c = 63 ∨ c = 43 then
    if is_begin then .done .invalid
    else
      .next rest (⟨if c = 43 then .type_plus_sign else .type_qestion_mark, 0⟩ :: stack)
        depth is_begin flags (dfa + 1)
  else if c = 123 then
    match parse_iterator (c :: rest) stack is_begin with
    | .ok tmp stack1 delta =>
      .next ((c :: rest).drop (tmp + 1)) stack1 depth is_begin flags (dfa + delta)
    | .memory => .done .memory
    | .invalid =>
      -- not a valid iterator: '{' is taken as a literal character
      .next rest (⟨.type_char, 123⟩ :: stack) depth is_begin flags (dfa + 1)
  else if c = 91 then
    match parse_char_range (c :: rest) flags stack with
    | .ok tmp stack1 delta =>
      .next ((c :: rest).drop (tmp + 1)) stack1 depth false flags (dfa + delta)
    | .invalid => .done .invalid
  else if rest = [] ∧ c = 36 then
    -- trailing '$' folds into REGEX_MATCH_END
    .next rest stack depth is_begin
      ⟨flags.match_begin, true, flags.non_greedy, flags.newline, flags.id_check⟩ dfa
  else
    .next rest (⟨.type_char, (c : Nat)⟩ :: stack) depth false flags (dfa + 1)

/-- The main loop of C `parse`: run `parse_step` until the input is consumed
(then check the bracket depth and push the `type_end` sentinel) or a result
is returned.  Each iteration consumes at least one input character, so the
fuel passed by `parse` (one more than the input length) never runs out; the
`.memory` it would yield marks the impossible case. -/
def parse_loop : Nat → List Nat → List stack_item → Nat → Bool → RFlags → Int → ParseResult
  | 0, _, _, _, _, _, _ => .memory
  | _, [], stack, depth, _, flags, dfa =>
    if depth ≠ 0 then .invalid
    else .ok (⟨.type_end, 0⟩ :: stack) flags dfa
  | fuel + 1, c :: rest, stack, depth, is_begin, flags, dfa =>
    match parse_step c rest stack depth is_begin flags dfa with
    | .done r => r
    | .next inp1 stack1 depth1 is_begin1 flags1 dfa1 =>
      parse_loop fuel inp1 stack1 depth1 is_begin1 flags1 dfa1

/-- C `parse`: a leading `^` folds into `REGEX_MATCH_BEGIN`; the stack starts
with the `type_begin` sentinel and the predicted size with 2 (for
`type_begin` and `type_end`). -/
def parse (inp : List Nat) (flags0 : RFlags) : ParseResult :=
  match inp with
  | c :: r =>
    if c = 94 then
      parse_loop (inp.length + 1) r [⟨.type_begin, 0⟩] 0 true
        ⟨true, flags0.match_end, flags0.non_greedy, flags0.newline, flags0.id_check⟩ 2
    else parse_loop (inp.length + 1) inp [⟨.type_begin, 0⟩] 0 true flags0 2
  | [] => parse_loop 1 [] [⟨.type_begin, 0⟩] 0 true flags0 2

/-- The output of C `generate_search_states`: the `search_states[i].type`
column (the `.value` column is initialized to `-1` throughout), the slot
count `terms_size`, the `longest_range_size` over-estimate, and whether an
`ID n` with `n > 0` set the `REGEX_ID_CHECK` flag. -/
structure SearchStatesOut where
  types : List Int
  terms_size : Nat
  longest_range_size : Nat
  id_check : Bool
  deriving DecidableEq, Repr

/-- The forward pass of C `generate_search_states`.  `ts` is the running
`terms_size` (starting at 1), `pos` the current program position, `rng` the
position of the last `type_rng_start` (the C code keeps a pointer; it is
never read before a `type_rng_start` appears in a program produced by the
generator). -/
def generate_search_states_go : List stack_item → Nat → Nat → Nat → Nat → Bool →
    SearchStatesOut
  | [], ts, _, _, longest, idc => ⟨[], ts, longest, idc⟩
  | it :: rest, ts, pos, rng, longest, idc =>
    let step : Int × Nat × Nat × Nat × Bool :=
      match it.type with
      | .type_begin => (0, ts, rng, longest, idc)
      | .type_end => (0, ts, rng, longest, idc)
      | .type_char => ((ts : Nat), ts + 1, rng, longest, idc)
      | .type_id => (-1, ts, rng, longest, idc || decide (0 < it.value))
      | .type_rng_start => ((ts : Nat), ts, pos, longest, idc)
      | .type_rng_end => ((ts : Nat), ts + 1, rng, max longest (pos - rng), idc)
      | _ => (-1, ts, rng, longest, idc)
    let out := generate_search_states_go rest step.2.1 (pos + 1) step.2.2.1
      step.2.2.2.1 step.2.2.2.2
    ⟨step.1 :: out.types, out.terms_size, out.longest_range_size, out.id_check⟩

/-- C `generate_search_states` over a transition program (terms_size starts
at 1: `type_begin` and `type_end` share slot 0). -/
def generate_search_states (prog : List stack_item) : SearchStatesOut :=
  generate_search_states_go prog 1 0 0 0 false

/-- The positions of a program the specification calls slot-bearing when it
counts them: `BEGIN`, `END`, each `CHAR`, each complete range (counted at
its `type_rng_end`). -/
def spec_slot_count (prog : List stack_item) : Nat :=
  prog.countP fun it =>
    it.type = .type_begin ∨ it.type = .type_end ∨ it.type = .type_char ∨
      it.type = .type_rng_end

/-- Every `type_rng_start` of the program is followed by a later
`type_rng_end` (true of every program the transition generator emits). -/
def rng_closed : List stack_item → Bool
  | [] => true
  | it :: rest =>
    (if it.type = .type_rng_start then rest.any (fun j => j.type = .type_rng_end) else true)
      && rng_closed rest

/-- The per-term state-vector width chosen by `regex_compile` (machine field
`no_states`), from the flags as they stand after `generate_search_states`. -/
def machine_no_states (flags : RFlags) : Nat :=
  if flags.id_check ∧ ¬ flags.match_begin then 4
  else if ¬ flags.id_check ∧ flags.match_begin then 2
  else 3

/-- One entry of the active chain of the current state vector, as the
clear-states loop emitted by `compile_end_check` reads it: the entry's byte
offset in the vector and its stored start index (`ITEM[2]`). -/
structure ChainEntry where
  offset : Int
  start : Int
  deriving DecidableEq, Repr

/-- The loop emitted by `compile_end_check` when a match with a strictly
smaller `begin` has been recorded: walk the active chain; an entry whose
start index is unsigned-greater than the new begin (greedy), respectively
unsigned-not-less (non-greedy), has its `ITEM[1]` set to `-1`
(deactivated); the other entries are relinked at the front of the rebuilt
chain.  The first component accumulates the rebuilt chain (which reverses
the order, as the emitted code does), the second the deactivated entries. -/
def end_check_clear_go (non_greedy : Bool) (new_begin : Int) :
    List ChainEntry → List ChainEntry → List ChainEntry →
    List ChainEntry × List ChainEntry
  | [], kept, cleared => (kept, cleared)
  | e :: rest, kept, cleared =>
    if (if non_greedy then uns new_begin ≤ uns e.start else uns new_begin < uns e.start)
    then end_check_clear_go non_greedy new_begin rest kept (e :: cleared)
    else end_check_clear_go non_greedy new_begin rest (e :: kept) cleared

/-- The clear-states loop (entry point): start with an empty rebuilt chain
and nothing deactivated. -/
def end_check_clear_states (non_greedy : Bool) (new_begin : Int)
    (chain : List ChainEntry) : List ChainEntry × List ChainEntry :=
  end_check_clear_go non_greedy new_begin chain [] []

/-- One slot of the `next` state vector as `compile_cond_tran` reads it in
the case without `REGEX_ID_CHECK` and without `REGEX_MATCH_BEGIN`:
`item1` is `ITEM[1]` (the chain link; `-1` = not inserted), `item2` is
`ITEM[2]` (the start index of the candidate). -/
structure CondEntry where
  item1 : Int
  item2 : Int
  deriving DecidableEq, Repr

/-- The merge emitted by `compile_cond_tran` for one reached target slot, in
the case `¬REGEX_ID_CHECK ∧ ¬REGEX_MATCH_BEGIN` (regexJIT.c, the first
branch of the flag dispatch).  `head` is `R_NEXT_HEAD`, `offset` the target
slot's byte offset, `e` the slot's current words and `new_start` the start
index carried in `R_TEMP`.  Returns the updated slot and the updated head.
`REGEX_MATCH_NON_GREEDY` is accepted as a parameter so that the claim about
it can be stated, but the emitted code never consults it: `compile_cond_tran`
contains no use of that flag. -/
def cond_tran_insert (non_greedy : Bool) (head offset : Int)
    (e : CondEntry) (new_start : Int) : CondEntry × Int :=
  if e.item1 = -1 then
    -- not inserted yet: link at the head of the chain, store the start
    (⟨head, new_start⟩, if 0 < offset then offset else head)
  else if uns e.item2 ≤ uns new_start then
    -- the stored candidate started no later (unsigned): keep it
    (e, head)
  else
    -- the new candidate started earlier: overwrite the start
    (⟨e.item1, new_start⟩, head)

/-- The best-match record of `struct regex_match` (fields in priority
order). -/
structure BestRec where
  best_begin : Int
  best_end : Int
  best_id : Int
  deriving DecidableEq, Repr

/-- The best-match update emitted by `compile_end_check` on its
`¬REGEX_MATCH_BEGIN` path: skip when the stored `best_begin` is
unsigned-less than the new begin (greedy), respectively unsigned-not-greater
(non-greedy); otherwise overwrite `best_begin`, `best_end` (with the current
index) and, under `REGEX_ID_CHECK`, `best_id`. -/
def end_check_update (non_greedy id_check : Bool) (b : BestRec)
    (new_begin new_id index : Int) : BestRec :=
  if (if non_greedy then uns b.best_begin ≤ uns new_begin
      else uns b.best_begin < uns new_begin) then b
  else ⟨new_begin, index, if id_check then new_id else b.best_id⟩

/-- The best-match update on the `REGEX_MATCH_BEGIN` paths (the second
branch of `compile_end_check`, and the inline non-greedy update in
`regex_compile`): `best_begin` is always 0. -/
def end_check_update_begin (id_check : Bool) (b : BestRec)
    (new_id index : Int) : BestRec :=
  ⟨0, index, if id_check then new_id else b.best_id⟩

/-- One write to the best-match record during matching.  These are the only
places the generated code stores to `best_begin`. -/
inductive BestEvent where
  | end_reached (new_begin new_id index : Int)
  | end_reached_begin (new_id index : Int)
  deriving DecidableEq, Repr

/-- Apply one best-match update. -/
def best_step (non_greedy id_check : Bool) (b : BestRec) : BestEvent → BestRec
  | .end_reached nb nid idx => end_check_update non_greedy id_check b nb nid idx
  | .end_reached_begin nid idx => end_check_update_begin id_check b nid idx

/-- The best-match record after a sequence of updates, starting from the
state `regex_reset_match` installs (`best_begin = -1`, `best_end = 0`,
`best_id = 0`). -/
def best_trace (non_greedy id_check : Bool) (evs : List BestEvent) : BestRec :=
  evs.foldl (best_step non_greedy id_check) ⟨-1, 0, 0⟩

/-- C `struct regex_match`, with the machine reference replaced by the flag
set (all `regex_get_result` reads of the machine).  `current` and `next` are
the two flattened state vectors. -/
structure regex_match_t where
  current : List Int
  next : List Int
  head : Int
  index : Int
  best_begin : Int
  best_end : Int
  best_id : Int
  fast_quit : Int
  fast_forward : Int
  deriving DecidableEq, Repr

/-- C `regex_get_result`: returns `(return value, *end, *id)`.  Without
`REGEX_MATCH_END` the stored best match is reported; with it, the END slot
(slot 0) of the current vector decides, `ITEM[1]` being its active flag. -/
def regex_get_result (flags : RFlags) (m : regex_match_t) : Int × Int × Int :=
  if ¬ flags.match_end then (m.best_begin, m.best_end, m.best_id)
  else if ¬ flags.match_begin then
    if ¬ flags.id_check then
      if m.current.getD 1 0 = -1 then (-1, m.best_end, m.best_id)
      else (m.current.getD 2 0, m.index - 1, m.best_id)
    else
      if m.current.getD 1 0 = -1 then (-1, m.best_end, m.best_id)
      else (m.current.getD 2 0, m.index - 1, m.current.getD 3 0)
  else
    if ¬ flags.id_check then
      if m.current.getD 1 0 = -1 ∨ m.head = -1 then (-1, m.best_end, m.best_id)
      else (0, m.index - 1, m.best_id)
    else
      if m.current.getD 1 0 = -1 ∨ m.head = -1 then (-1, m.best_end, m.best_id)
      else (0, m.index - 1, m.current.getD 2 0)

/-- One store sequence of the init stub that `regex_compile` builds from
`compile_uncond_tran`: for each slot of the BEGIN ε-closure the stub stores a
chain link to `ITEM[1]` and, depending on the state width, constants to
`ITEM[2]` and `ITEM[3]` (the start index — 0 at init — and the id value).
Every stored value is a compile-time constant of the machine. -/
structure InitSeed where
  t : Nat
  link : Int
  w2 : Option Int
  w3 : Option Int
  deriving DecidableEq, Repr

/-- The compiled machine as the matching utilities see it: flags, the state
width `no_states`, the slot count `terms_size`, the entry addresses, and the
init stub as the store sequence `compile_uncond_tran` emits for it together
with the head value it returns. -/
structure MachineModel where
  flags : RFlags
  no_states : Nat
  terms_size : Nat
  entry_addrs : List Int
  init_seeds : List InitSeed
  init_head : Int
  deriving DecidableEq, Repr

/-- Perform the stores of one init seed on a flattened state vector. -/
def apply_seed (ns : Nat) (v : List Int) (s : InitSeed) : List Int :=
  let v1 := v.set (s.t * ns + 1) s.link
  let v2 := match s.w2 with
    | some x => v1.set (s.t * ns + 2) x
    | none => v1
  match s.w3 with
  | some x => v2.set (s.t * ns + 3) x
  | none => v2

/-- `machine->call_init(current)`: run the init stub's stores and return the
head it computed (a machine constant). -/
def call_init (mach : MachineModel) (v : List Int) : List Int × Int :=
  (mach.init_seeds.foldl (apply_seed mach.no_states) v, mach.init_head)

/-- The words `regex_begin_match` writes for one term: the entry address,
`-1` in `ITEM[1]`, zero in the remaining words (the `no_states` switch). -/
def slot_pattern (ns : Nat) (addr : Int) : List Int :=
  match ns with
  | 2 => [addr, -1]
  | 3 => [addr, -1, 0]
  | 4 => [addr, -1, 0, 0]
  | _ => []

/-- The initialization loop of `regex_begin_match`: one `slot_pattern` per
entry address. -/
def init_vector_go (ns : Nat) : List Int → List Int
  | [] => []
  | addr :: rest => slot_pattern ns addr ++ init_vector_go ns rest

/-- The state vector as `regex_begin_match` initializes it (both halves get
the same contents). -/
def init_vector (mach : MachineModel) : List Int :=
  init_vector_go mach.no_states mach.entry_addrs

/-- The chain-clearing loop of C `regex_reset_match`: follow the `ITEM[1]`
links from `head`, writing `-1` into each visited link word; the link is read
before it is overwritten.  `fuel` bounds the walk (the C loop relies on the
chain being acyclic). -/
def clear_chain_go : Nat → Int → List Int → List Int
  | 0, _, v => v
  | fuel + 1, cur, v =>
    let i := (cur / 8).toNat + 1
    let nxt := v.getD i 0
    let v1 := v.set i (-1)
    if nxt = 0 then v1 else clear_chain_go fuel nxt v1

/-- C `regex_reset_match`: reset the scalar fields, deactivate the chained
entries of the current vector, and re-seed via the machine's init stub. -/
def regex_reset_match (mach : MachineModel) (m : regex_match_t) : regex_match_t :=
  let cur1 := if m.head ≠ 0 then clear_chain_go (m.current.length + 1) m.head m.current
              else m.current
  let p := call_init mach cur1
  ⟨p.1, m.next, p.2, 1, -1, 0, 0, 0, 0⟩

/-- C `regex_begin_match`: allocate and initialize both state vectors, then
reset.  The scalar fields other than `head` are uninitialized malloc memory
in C until `regex_reset_match` overwrites every one of them; they are 0
here. -/
def regex_begin_match (mach : MachineModel) : regex_match_t :=
  regex_reset_match mach ⟨init_vector mach, init_vector mach, 0, 0, 0, 0, 0, 0, 0⟩

/-- `chain_wf ns v off ch`: starting at byte offset `off` of the flattened
vector `v` and following the `ITEM[1]` links visits exactly the slots listed
in `ch` and terminates at offset 0.  Slot numbers in the chain are positive
(offset 0 is the terminator, so slot 0 can never be linked into the chain)
and not repeated. -/
inductive chain_wf (ns : Nat) (v : List Int) : Int → List Nat → Prop
  | nil : chain_wf ns v 0 []
  | cons (t : Nat) (ch : List Nat) :
      0 < t → t * ns + 1 < v.length → t ∉ ch →
      chain_wf ns v (v.getD (t * ns + 1) 0) ch →
      chain_wf ns v ((t * ns * 8 : Nat) : Int) (t :: ch)

/-- Observable agreement of two flattened state vectors of width `ns`: the
same length, and the same words except that `ITEM[2]`, `ITEM[3]` of a slot
that is inactive in both (its `ITEM[1]` is `-1`) may differ — the engine and
`regex_get_result` never read those words of an inactive slot. -/
def vec_obs_eq (ns : Nat) (v w : List Int) : Prop :=
  v.length = w.length ∧
  ∀ t k, k < ns → t * ns + k < v.length →
    (k ≤ 1 ∨ v.getD (t * ns + 1) 0 ≠ -1 ∨ w.getD (t * ns + 1) 0 ≠ -1) →
    v.getD (t * ns + k) 0 = w.getD (t * ns + k) 0

/-- Observable agreement of two match records: equal scalar fields and
observably equal state vectors. -/
def match_obs_eq (ns : Nat) (m1 m2 : regex_match_t) : Prop :=
  vec_obs_eq ns m1.current m2.current ∧ vec_obs_eq ns m1.next m2.next ∧
  m1.head = m2.head ∧ m1.index = m2.index ∧
  m1.best_begin = m2.best_begin ∧ m1.best_end = m2.best_end ∧
  m1.best_id = m2.best_id ∧ m1.fast_quit = m2.fast_quit ∧
  m1.fast_forward = m2.fast_forward

/-- The id accumulation of the trace walker at a position: a `type_id`
transition raises the accumulator to its value when larger. -/
def id_upd (prog : List stack_item) (p : Nat) (a : Int) : Int :=
  let it := prog.getD p ⟨.type_begin, 0⟩
  if it.type = .type_id ∧ a < it.value then it.value else a

/-- The ε-successors of a position: both arms of a branch, the target of a
jump, the next position otherwise. -/
def succs (prog : List stack_item) (p : Nat) : List Nat :=
  let it := prog.getD p ⟨.type_begin, 0⟩
  if it.type = .type_branch then [p + 1, it.value.toNat]
  else if it.type = .type_jump then [it.value.toNat]
  else [p + 1]

/-- Whether the walker continues past a position: always past a branch or a
jump, past other positions only when they carry no term slot. -/
def can_cont (prog : List stack_item) (types : List Int) (p : Nat) : Prop :=
  (prog.getD p ⟨.type_begin, 0⟩).type = .type_branch ∨
  (prog.getD p ⟨.type_begin, 0⟩).type = .type_jump ∨
  types.getD p 0 < 0

instance (prog : List stack_item) (types : List Int) (p : Nat) :
    Decidable (can_cont prog types p) := by
  unfold can_cont; infer_instance

/-- The ε-paths of the trace: `Walk prog types start p v` holds when the
walk beginning right after `start` can reach position `p` with accumulated
id `v` (the maximum `type_id` value seen on the way, updated at `p`
itself). -/
inductive Walk (prog : List stack_item) (types : List Int) (start : Nat) :
    Nat → Int → Prop
  | init : Walk prog types start (start + 1) (id_upd prog (start + 1) 0)
  | step (p : Nat) (v : Int) (q : Nat) :
      Walk prog types start p v → can_cont prog types p → q ∈ succs prog p →
      Walk prog types start q (id_upd prog q v)

/-- The loop of C `trace_transitions`.  State: current position `p`, current
id accumulator, the mark column `search_states[.].value`, the output stack
of first-visited positions, and the backtracking stack of `(id, branch
position)` pairs.  One unit of fuel is one iteration of the C `while (1)`
loop; `none` models running out of fuel (never happens for the fuel bound
proved below). -/
def trace_go (prog : List stack_item) (types : List Int) :
    Nat → Nat → Int → List Int → List Nat → List (Int × Nat) →
    Option (List Int × List Nat)
  | 0, _, _, _, _, _ => none
  | fuel + 1, p, id, marks, out, depth =>
    let it := prog.getD p ⟨.type_begin, 0⟩
    let id1 := if it.type = .type_id ∧ id < it.value then it.value else id
    if marks.getD p 0 < id1 then
      let out1 := if marks.getD p 0 = -1 then p :: out else out
      let marks1 := marks.set p id1
      if it.type = .type_branch then
        trace_go prog types fuel (p + 1) id1 marks1 out1 ((id1, p) :: depth)
      else if it.type = .type_jump then
        trace_go prog types fuel it.value.toNat id1 marks1 out1 depth
      else if types.getD p 0 < 0 then
        trace_go prog types fuel (p + 1) id1 marks1 out1 depth
      else
        -- a slot-bearing position: fall through to backtracking
        match depth with
        | [] => some (marks1, out1)
        | (id2, bp) :: depth2 =>
          trace_go prog types fuel ((prog.getD bp ⟨.type_begin, 0⟩).value.toNat)
            id2 marks1 out1 depth2
    else
      match depth with
      | [] => some (marks, out)
      | (id2, bp) :: depth2 =>
        trace_go prog types fuel ((prog.getD bp ⟨.type_begin, 0⟩).value.toNat)
          id2 marks out depth2

/-- The largest `type_id` value of the program, floored at 0 (the id
accumulator can never exceed it). -/
def max_id (prog : List stack_item) : Int :=
  prog.foldl (fun m it => if it.type = .type_id ∧ m < it.value then it.value else m) 0

/-- A fuel bound sufficient for any trace over the program: marks can rise
at most `max_id + 1` times per position, each rise pays for itself and for
one backtrack. -/
def trace_fuel (prog : List stack_item) : Nat :=
  2 * (max_id prog + 1).toNat * prog.length + 1

/-- C `trace_transitions(from, ...)`: the id starts at 0 and the walk starts
at the position after `from`; the caller's stacks are empty and the mark
column is `-1` everywhere. -/
def trace_transitions (prog : List stack_item) (types : List Int) (start : Nat) :
    Option (List Int × List Nat) :=
  trace_go prog types (trace_fuel prog) (start + 1) 0
    (List.replicate prog.length (-1)) [] []

/-- The effect of the reset chain walk on the vector, stated directly: the
`ITEM[1]` word of every slot in the chain is set to `-1`. -/
def clear_marks (ns : Nat) (ch : List Nat) (v : List Int) : List Int :=
  ch.foldl (fun w t => w.set (t * ns + 1) (-1)) v

/-- Whether one init seed stores to the flat-vector index `i`. -/
def seed_writes (ns : Nat) (s : InitSeed) (i : Nat) : Prop :=
  i = s.t * ns + 1 ∨ (s.w2.isSome ∧ i = s.t * ns + 2) ∨ (s.w3.isSome ∧ i = s.t * ns + 3)

instance (ns : Nat) (s : InitSeed) (i : Nat) : Decidable (seed_writes ns s i) := by
  unfold seed_writes; infer_instance

/-- Headroom of one mark value below the program's largest id. -/
def trace_hr (M : Int) (x : Int) : Nat := (M - x).toNat

/-- Termination measure of the trace loop: every forward step lowers the
total headroom, every backtrack shortens the depth stack. -/
def trace_phi (M : Int) (marks : List Int) (depth : List (Int × Nat)) : Nat :=
  2 * (marks.map (trace_hr M)).sum + depth.length

/-- Obligation coverage for the trace-loop invariant: the required final
mark `w` at position `r` is already present in `marks`, or the loop is
currently headed for `r`, or a pending branch on the depth stack will resume
at `r` with a sufficient id. -/
def covers (prog : List stack_item) (p : Nat) (id : Int) (depth : List (Int × Nat))
    (marks : List Int) (r : Nat) (w : Int) : Prop :=
  w ≤ marks.getD r 0 ∨ (r = p ∧ w ≤ id_upd prog p id) ∨
  ∃ vb ∈ depth, r = (prog.getD vb.2 ⟨.type_begin, 0⟩).value.toNat ∧
    w ≤ id_upd prog r vb.1

/-- Helper: one best-match update never makes `best_begin` larger in the
unsigned order (in which `-1`, "no match yet", is the top). -/
theorem best_step_mono (ng idc : Bool) (b : BestRec) (ev : BestEvent) :
    uns ((best_step ng idc b ev).best_begin) ≤ uns b.best_begin := by
  cases ev with
  | end_reached nb nid idx =>
    simp only [best_step, end_check_update]
    cases ng with
    | false =>
      simp only [Bool.false_eq_true, if_false]
      by_cases h : uns b.best_begin < uns nb
      · rw [if_pos h]
      · rw [if_neg h]
        show uns nb ≤ uns b.best_begin
        omega
    | true =>
      simp only [if_true]
      by_cases h : uns b.best_begin ≤ uns nb
      · rw [if_pos h]
      · rw [if_neg h]
        show uns nb ≤ uns b.best_begin
        omega
  | end_reached_begin nid idx =>
    simp only [best_step, end_check_update_begin]
    have h0 : uns 0 = 0 := by simp [uns]
    simp [h0]

/-- Helper: folding further best-match updates never makes `best_begin`
larger in the unsigned order. -/
theorem best_foldl_mono (ng idc : Bool) (ext : List BestEvent) (b : BestRec) :
    uns ((ext.foldl (best_step ng idc) b).best_begin) ≤ uns b.best_begin := by
  induction ext generalizing b with
  | nil => exact le_refl _
  | cons a t ih =>
    exact le_trans (ih (best_step ng idc b a)) (best_step_mono ng idc b a)

/-- C3 (amended): across any sequence of best-match updates after a reset,
`best_begin` is monotonically non-increasing in the unsigned machine order
(`-1` = no match = largest) under greedy AND under non-greedy matching; it
never oscillates.  The claim's direction for non-greedy matching
("monotonically increases") is refuted by `C3_counterexample`. -/
theorem C3_best_begin_monotone (ng idc : Bool) (evs ext : List BestEvent) :
    uns ((best_trace ng idc (evs ++ ext)).best_begin) ≤
      uns ((best_trace ng idc evs).best_begin) := by
  unfold best_trace
  rw [List.foldl_append]
  exact best_foldl_mono ng idc ext _

/-- C3 counterexample: under non-greedy matching a later accepted match can
have a strictly smaller `best_begin` (5 then 3), so `best_begin` does not
monotonically increase under REGEX_MATCH_NON_GREEDY. -/
theorem C3_counterexample :
    (best_trace true false [BestEvent.end_reached 5 0 7]).best_begin = 5 ∧
    (best_trace true false
      [BestEvent.end_reached 5 0 7, BestEvent.end_reached 3 0 9]).best_begin = 3 ∧
    ¬ ((5 : Int) ≤ 3) := by
  refine ⟨by decide, by decide, by decide⟩

/-- C6: the state-vector width `no_states` is 2 exactly when the regex is
anchored at the start without id tracking, 4 exactly when id tracking is on
without the start anchor, and 3 in every other flag combination. -/
theorem C6_no_states (mb me ng nl idc : Bool) :
    machine_no_states ⟨mb, me, ng, nl, idc⟩ =
      if mb ∧ ¬ idc then 2 else if ¬ mb ∧ idc then 4 else 3 := by
  cases mb <;> cases idc <;> simp [machine_no_states]

/-- Helper: membership in the deactivated list of the clear-states loop,
with accumulators generalized. -/
theorem end_check_clear_go_mem (ng : Bool) (nb : Int) (l : List ChainEntry) :
    ∀ kept cleared e,
      (e ∈ (end_check_clear_go ng nb l kept cleared).2 ↔
        e ∈ cleared ∨ (e ∈ l ∧
          (if ng then uns nb ≤ uns e.start else uns nb < uns e.start))) := by
  induction l with
  | nil => intro kept cleared e; simp [end_check_clear_go]
  | cons a t ih =>
    intro kept cleared e
    by_cases hc : (if ng then uns nb ≤ uns a.start else uns nb < uns a.start)
    · simp only [end_check_clear_go]
      rw [if_pos hc, ih]
      simp only [List.mem_cons]
      constructor
      · rintro ((rfl | h) | ⟨hm, hcond⟩)
        · exact Or.inr ⟨Or.inl rfl, hc⟩
        · exact Or.inl h
        · exact Or.inr ⟨Or.inr hm, hcond⟩
      · rintro (h | ⟨(rfl | hm), hcond⟩)
        · exact Or.inl (Or.inr h)
        · exact Or.inl (Or.inl rfl)
        · exact Or.inr ⟨hm, hcond⟩
    · simp only [end_check_clear_go]
      rw [if_neg hc, ih]
      simp only [List.mem_cons]
      constructor
      · rintro (h | ⟨hm, hcond⟩)
        · exact Or.inl h
        · exact Or.inr ⟨Or.inr hm, hcond⟩
      · rintro (h | ⟨(rfl | hm), hcond⟩)
        · exact Or.inl h
        · exact absurd hcond hc
        · exact Or.inr ⟨hm, hcond⟩

/-- C1 (amended): when the best-match update finds a strictly smaller begin,
the emitted clear-states loop deactivates exactly the chain entries whose
start index is unsigned-GREATER than the new begin under greedy matching,
and exactly those whose start index is unsigned-greater-or-EQUAL under
non-greedy matching (the claim has the two comparisons the other way round;
`C1_counterexample` refutes it). -/
theorem C1_clear_states_deactivation (ng : Bool) (nb : Int)
    (chain : List ChainEntry) (e : ChainEntry) :
    e ∈ (end_check_clear_states ng nb chain).2 ↔
      e ∈ chain ∧ (if ng then uns nb ≤ uns e.start else uns nb < uns e.start) := by
  unfold end_check_clear_states
  rw [end_check_clear_go_mem]
  simp

/-- C1 counterexample: under greedy matching a chain entry whose start index
equals the new begin (start 4, new begin 4, so start ≥ new begin) is NOT
deactivated by the emitted loop, contradicting the claim that every entry
with `start ≥ new begin` is deactivated under greedy matching. -/
theorem C1_counterexample :
    uns (4 : Int) ≤ uns (ChainEntry.mk 3 4).start ∧
    (ChainEntry.mk 3 4) ∉ (end_check_clear_states false 4 [ChainEntry.mk 3 4]).2 := by
  refine ⟨by decide, by decide⟩

/-- C2 (amended): in the cond-tran merge without id tracking and without
start anchoring, when the target slot is already inserted the candidate with
the unsigned-smaller (earlier) start index wins — irrespective of
REGEX_MATCH_NON_GREEDY, which the emitted code never consults; on a tie the
stored candidate is kept.  (The claim's "later start wins when non-greedy"
is refuted by `C2_counterexample`.) -/
theorem C2_cond_tran_earlier_start_wins (ng : Bool) (head offset : Int)
    (e : CondEntry) (new_start : Int) (h : e.item1 ≠ -1) :
    (cond_tran_insert ng head offset e new_start).1.item2 =
      if uns e.item2 ≤ uns new_start then e.item2 else new_start := by
  unfold cond_tran_insert
  rw [if_neg h]
  split <;> rfl

/-- C2 witness: the amended statement at a concrete inserted slot. -/
theorem C2_witness :
    (cond_tran_insert false 0 3 ⟨0, 7⟩ 4).1.item2 =
      if uns (CondEntry.mk 0 7).item2 ≤ uns 4 then (CondEntry.mk 0 7).item2 else 4 :=
  C2_cond_tran_earlier_start_wins false 0 3 ⟨0, 7⟩ 4 (by decide)

/-- C2 counterexample: with REGEX_MATCH_NON_GREEDY set, a stored candidate
with the earlier start (2) is kept against a new candidate with the later
start (5): the later start does not win. -/
theorem C2_counterexample :
    (cond_tran_insert true 0 6 ⟨9, 2⟩ 5).1.item2 = 2 ∧ ((2 : Int) ≠ 5) := by
  refine ⟨by decide, by decide⟩

/-- C4 (amended): a malformed `{…}` iterator does not make the parser fail:
when `parse_iterator` rejects (`-2` in C), the parse loop pushes `{` as a
literal character term and continues with the rest of the pattern — no
`INVALID_REGEX` arises from a malformed brace expression (refuting the
claim, see `C4_counterexample`; `regex_compile` reports `INVALID_REGEX`
exactly when `parse` does). -/
theorem C4_malformed_brace_is_literal (fuel : Nat) (rest : List Nat)
    (stack : List stack_item) (depth : Nat) (is_begin : Bool) (flags : RFlags)
    (dfa : Int) (h : parse_iterator (123 :: rest) stack is_begin = .invalid) :
    parse_loop (fuel + 1) (123 :: rest) stack depth is_begin flags dfa =
      parse_loop fuel rest (⟨.type_char, 123⟩ :: stack) depth is_begin flags (dfa + 1) := by
  rw [parse_loop]
  have hs : parse_step 123 rest stack depth is_begin flags dfa =
      .next rest (⟨.type_char, 123⟩ :: stack) depth is_begin flags (dfa + 1) := by
    simp only [parse_step, h]
    norm_num
  rw [hs]

/-- C4 witness: the amended statement on the pattern `{x` (an unclosed
brace), whose iterator parse is rejected. -/
theorem C4_witness :
    parse_loop 2 [123, 120] [⟨.type_begin, 0⟩] 0 true no_flags 2 =
      parse_loop 1 [120] [⟨.type_char, 123⟩, ⟨.type_begin, 0⟩] 0 true no_flags 3 :=
  C4_malformed_brace_is_literal 1 [120] [⟨.type_begin, 0⟩] 0 true no_flags 2 (by decide)

/-- C4 counterexample: the pattern `a{3,2}` has a `{…}` iterator whose upper
bound is smaller than its lower bound, yet `parse` succeeds (`NO_ERROR`),
treating `{`, `3`, `,`, `2`, `}` as five literal characters — `regex_compile`
does not fail with `INVALID_REGEX`. -/
theorem C4_counterexample :
    parse [97, 123, 51, 44, 50, 125] no_flags =
      ParseResult.ok [⟨.type_end, 0⟩, ⟨.type_char, 125⟩, ⟨.type_char, 50⟩,
        ⟨.type_char, 44⟩, ⟨.type_char, 51⟩, ⟨.type_char, 123⟩, ⟨.type_char, 97⟩,
        ⟨.type_begin, 0⟩] no_flags 8 ∧
    parse [97, 123, 51, 44, 50, 125] no_flags ≠ ParseResult.invalid := by
  refine ⟨by decide, by decide⟩

/-- Helper: evaluation of `parse_char_range` on a single well-shaped range
class `[x-y]` whose characters avoid the regex metacharacters `^`, `]`,
`\` — the bounds are stored swapped into order. -/
theorem parse_char_range_single_range (c1 c2 : Nat) (flags : RFlags)
    (stack : List stack_item) (h94 : c1 ≠ 94) (h93 : c1 ≠ 93) (h92 : c1 ≠ 92)
    (g93 : c2 ≠ 93) (g92 : c2 ≠ 92) :
    parse_char_range [91, c1, 45, c2, 93] flags stack =
      .ok 4 (⟨.type_rng_end, 0⟩ :: ⟨.type_rng_right, (max c1 c2 : Nat)⟩ ::
        ⟨.type_rng_left, (min c1 c2 : Nat)⟩ :: ⟨.type_rng_start, 0⟩ :: stack) 4 := by
  simp [parse_char_range, pcr_body, pcr_loop, pcr_left, h94, h93, h92, g93, g92]

/-- C10 (amended): for characters `c1 > c2` that are not one of the class
metacharacters `^`, `]`, `\`, the class `[c1-c2]` parses to exactly the same
term sequence as `[c2-c1]`: the range bounds are swapped into order.  (For
the metacharacters the two spellings parse differently — see
`C10_counterexample`.) -/
theorem C10_range_bounds_swap (c1 c2 : Nat) (flags : RFlags)
    (stack : List stack_item) (hlt : c2 < c1)
    (h1 : c1 ≠ 94 ∧ c1 ≠ 93 ∧ c1 ≠ 92) (h2 : c2 ≠ 94 ∧ c2 ≠ 93 ∧ c2 ≠ 92) :
    parse_char_range [91, c1, 45, c2, 93] flags stack =
      parse_char_range [91, c2, 45, c1, 93] flags stack := by
  rw [parse_char_range_single_range c1 c2 flags stack h1.1 h1.2.1 h1.2.2 h2.2.1 h2.2.2,
    parse_char_range_single_range c2 c1 flags stack h2.1 h2.2.1 h2.2.2 h1.2.1 h1.2.2,
    Nat.max_comm, Nat.min_comm]

/-- C10 witness: the amended statement at `[b-a]` and `[a-b]`. -/
theorem C10_witness :
    parse_char_range [91, 98, 45, 97, 93] no_flags [] =
      parse_char_range [91, 97, 45, 98, 93] no_flags [] :=
  C10_range_bounds_swap 98 97 no_flags [] (by decide)
    ⟨by decide, by decide, by decide⟩ ⟨by decide, by decide, by decide⟩

/-- C10 counterexample: for `c1 = 'a' (97) > c2 = ']' (93)` the classes
`[a-]]` and `[]-a]` parse to different term sequences (`]` right after `[`
is a literal member, while `-]` at the end is not a range), so the claim
does not hold for every pair of characters. -/
theorem C10_counterexample :
    parse_char_range [91, 97, 45, 93, 93] no_flags [] ≠
      parse_char_range [91, 93, 45, 97, 93] no_flags [] := by
  decide

/-- Helper: the final `terms_size` of the search-state pass is the starting
count plus one per `type_char` and per `type_rng_end`. -/
theorem gss_go_terms_size (prog : List stack_item) :
    ∀ ts pos rng longest idc,
      (generate_search_states_go prog ts pos rng longest idc).terms_size =
        ts + prog.countP (fun it =>
          decide (it.type = .type_char ∨ it.type = .type_rng_end)) := by
  induction prog with
  | nil => intro ts pos rng longest idc; simp [generate_search_states_go]
  | cons a t ih =>
    intro ts pos rng longest idc
    cases a with
    | mk ty v =>
      cases ty <;> simp [generate_search_states_go, ih, List.countP_cons] <;> omega


/-- Helper: the slot column produced by the search-state pass, position by
position: 0 at `type_begin`/`type_end`, a value in `[0, B)` at `type_char`,
`type_rng_start` and `type_rng_end` (for any `B` at least the final
`terms_size`), `-1` everywhere else. -/
theorem gss_go_forall (prog : List stack_item) :
    ∀ ts pos rng longest idc (B : Int),
      ((generate_search_states_go prog ts pos rng longest idc).terms_size : Int) ≤ B →
      1 ≤ ts → rng_closed prog = true →
      List.Forall₂ (fun (it : stack_item) (w : Int) =>
        ((it.type = .type_begin ∨ it.type = .type_end) → w = 0) ∧
        ((it.type = .type_char ∨ it.type = .type_rng_start ∨ it.type = .type_rng_end) →
          0 ≤ w ∧ w < B) ∧
        ((¬ (it.type = .type_begin ∨ it.type = .type_end ∨ it.type = .type_char ∨
            it.type = .type_rng_start ∨ it.type = .type_rng_end)) → w = -1))
        prog (generate_search_states_go prog ts pos rng longest idc).types := by
  induction prog with
  | nil => intros; simp [generate_search_states_go]
  | cons a t ih =>
    intro ts pos rng longest idc B hB hts hwf
    simp only [rng_closed, Bool.and_eq_true] at hwf
    obtain ⟨hwa, hwt⟩ := hwf
    obtain ⟨ty, v⟩ := a
    have hterms := gss_go_terms_size t
    cases ty
    case type_char =>
      simp only [generate_search_states_go] at hB ⊢
      have hB2 := hB
      rw [hterms] at hB2
      refine List.Forall₂.cons ⟨by simp, fun _ => ⟨by omega, by omega⟩, by simp⟩
        (ih _ _ _ _ _ B hB (by omega) hwt)
    case type_rng_end =>
      simp only [generate_search_states_go] at hB ⊢
      have hB2 := hB
      rw [hterms] at hB2
      refine List.Forall₂.cons ⟨by simp, fun _ => ⟨by omega, by omega⟩, by simp⟩
        (ih _ _ _ _ _ B hB (by omega) hwt)
    case type_rng_start =>
      simp only [generate_search_states_go] at hB ⊢
      simp only [if_pos rfl] at hwa
      have hcp : 0 < t.countP (fun it =>
          decide (it.type = .type_char ∨ it.type = .type_rng_end)) := by
        rcases List.any_eq_true.mp hwa with ⟨x, hx, hpx⟩
        refine List.countP_pos_iff.mpr ⟨x, hx, ?_⟩
        simp only [decide_eq_true_eq] at hpx ⊢
        exact Or.inr hpx
      have hB2 := hB
      rw [hterms] at hB2
      refine List.Forall₂.cons ⟨by simp, fun _ => ⟨by omega, by omega⟩, by simp⟩
        (ih _ _ _ _ _ B hB hts hwt)
    case type_begin =>
      simp only [generate_search_states_go] at hB ⊢
      exact List.Forall₂.cons ⟨fun _ => rfl, by simp, by simp⟩
        (ih _ _ _ _ _ B hB hts hwt)
    case type_end =>
      simp only [generate_search_states_go] at hB ⊢
      exact List.Forall₂.cons ⟨fun _ => rfl, by simp, by simp⟩
        (ih _ _ _ _ _ B hB hts hwt)
    all_goals
      simp only [generate_search_states_go] at hB ⊢
    all_goals
      exact List.Forall₂.cons ⟨by simp, by simp, fun _ => rfl⟩
        (ih _ _ _ _ _ B hB hts hwt)

/-- C5 (amended): the search-state analyzer assigns slot index 0 to BOTH the
BEGIN and the END position (they share term slot 0), a slot index in
`[0, T)` to each `type_char` and to each range (at its `type_rng_start` and
its `type_rng_end`, which share the range's slot), and `-1` to every other
position; the total slot count `T` is ONE more than the number of `CHAR`
terms plus complete ranges — not two more, as counting BEGIN and END
separately would give (see `C5_counterexample`). -/
theorem C5_slot_assignment (prog : List stack_item) (hwf : rng_closed prog = true) :
    ((generate_search_states prog).terms_size =
      1 + prog.countP (fun it =>
        decide (it.type = .type_char ∨ it.type = .type_rng_end))) ∧
    List.Forall₂ (fun (it : stack_item) (w : Int) =>
      ((it.type = .type_begin ∨ it.type = .type_end) → w = 0) ∧
      ((it.type = .type_char ∨ it.type = .type_rng_start ∨ it.type = .type_rng_end) →
        0 ≤ w ∧ w < ((generate_search_states prog).terms_size : Int)) ∧
      ((¬ (it.type = .type_begin ∨ it.type = .type_end ∨ it.type = .type_char ∨
          it.type = .type_rng_start ∨ it.type = .type_rng_end)) → w = -1))
      prog (generate_search_states prog).types := by
  constructor
  · exact gss_go_terms_size prog 1 0 0 0 false
  · exact gss_go_forall prog 1 0 0 0 false _ (le_refl _) (le_refl 1) hwf

/-- C5 witness: the amended statement on the program for the pattern `a`. -/
theorem C5_witness :
    ((generate_search_states [⟨.type_begin, 0⟩, ⟨.type_char, 97⟩, ⟨.type_end, 0⟩]).terms_size =
      1 + List.countP (fun (it : stack_item) =>
        decide (it.type = .type_char ∨ it.type = .type_rng_end))
        [⟨.type_begin, 0⟩, ⟨.type_char, 97⟩, ⟨.type_end, 0⟩]) ∧
    List.Forall₂ (fun (it : stack_item) (w : Int) =>
      ((it.type = .type_begin ∨ it.type = .type_end) → w = 0) ∧
      ((it.type = .type_char ∨ it.type = .type_rng_start ∨ it.type = .type_rng_end) →
        0 ≤ w ∧ w <
          ((generate_search_states
            [⟨.type_begin, 0⟩, ⟨.type_char, 97⟩, ⟨.type_end, 0⟩]).terms_size : Int)) ∧
      ((¬ (it.type = .type_begin ∨ it.type = .type_end ∨ it.type = .type_char ∨
          it.type = .type_rng_start ∨ it.type = .type_rng_end)) → w = -1))
      [⟨.type_begin, 0⟩, ⟨.type_char, 97⟩, ⟨.type_end, 0⟩]
      (generate_search_states [⟨.type_begin, 0⟩, ⟨.type_char, 97⟩, ⟨.type_end, 0⟩]).types :=
  C5_slot_assignment [⟨.type_begin, 0⟩, ⟨.type_char, 97⟩, ⟨.type_end, 0⟩] (by decide)

/-- C5 counterexample: on the three-position program for the pattern `a`
(BEGIN, one CHAR, END) the analyzer's slot count is 2, while the number of
slot-bearing positions counted the claim's way (BEGIN, END, each CHAR, each
complete range) is 3 — BEGIN and END share slot 0, so `T` is one less than
that count. -/
theorem C5_counterexample :
    (generate_search_states [⟨.type_begin, 0⟩, ⟨.type_char, 97⟩, ⟨.type_end, 0⟩]).terms_size = 2 ∧
    spec_slot_count [⟨.type_begin, 0⟩, ⟨.type_char, 97⟩, ⟨.type_end, 0⟩] = 3 ∧
    (2 : Nat) ≠ 3 := by
  refine ⟨by decide, by decide, by decide⟩

/-- C8: `regex_get_result` returns the stored `best_begin` (with the stored
end and id) when `REGEX_MATCH_END` is not set; when it is set, the call
reports `-1` whenever the END term (slot 0 of the current vector, active iff
its `ITEM[1]` differs from `-1`) is inactive, and any non-`-1` result
implies the END term is active with the reported end index being the index
of the last consumed character (`index - 1`). -/
theorem C8_get_result (flags : RFlags) (m : regex_match_t) :
    (flags.match_end = false →
      regex_get_result flags m = (m.best_begin, m.best_end, m.best_id)) ∧
    (flags.match_end = true →
      ((m.current.getD 1 0 = -1 → (regex_get_result flags m).1 = -1) ∧
       ((regex_get_result flags m).1 ≠ -1 →
         m.current.getD 1 0 ≠ -1 ∧ (regex_get_result flags m).2.1 = m.index - 1))) := by
  refine ⟨fun hme => by simp [regex_get_result, hme], fun hme => ⟨fun h2 => ?_, fun h1 => ?_⟩⟩
  · unfold regex_get_result
    simp only [hme, not_true_eq_false, if_false]
    split_ifs <;> simp_all
  · unfold regex_get_result at h1 ⊢
    simp only [hme, not_true_eq_false, if_false] at h1 ⊢
    split_ifs at h1 ⊢ <;> simp_all

/-- Helper: reading the written position of `List.set`. -/
theorem getD_set_self (l : List Int) (i : Nat) (x : Int) (h : i < l.length) :
    (l.set i x).getD i 0 = x := by
  rw [List.getD_eq_getElem?_getD, List.getElem?_set_eq_of_lt x h]
  rfl

/-- Helper: reading another position of `List.set`. -/
theorem getD_set_ne (l : List Int) (i j : Nat) (x : Int) (h : i ≠ j) :
    (l.set i x).getD j 0 = l.getD j 0 := by
  rw [List.getD_eq_getElem?_getD, List.getElem?_set_ne h, ← List.getD_eq_getElem?_getD]

/-- Helper: a chain whose head offset is 0 is empty (offset 0 is the chain
terminator). -/
theorem chain_wf_zero_nil (ns : Nat) (v : List Int) (ch : List Nat) (hns : 1 ≤ ns)
    (h : chain_wf ns v 0 ch) : ch = [] := by
  generalize hoff : (0 : Int) = off at h
  cases h with
  | nil => rfl
  | cons t ch2 ht hlt hnd hrec =>
    exfalso
    have h1 : 0 < t * ns * 8 := Nat.mul_pos (Nat.mul_pos ht (by omega)) (by omega)
    omega

/-- Helper: a chain with a non-zero head offset is non-empty. -/
theorem chain_wf_ne_nil (ns : Nat) (v : List Int) (off : Int) (ch : List Nat)
    (h : chain_wf ns v off ch) (hoff : off ≠ 0) : ch ≠ [] := by
  cases h with
  | nil => exact absurd rfl hoff
  | cons t ch2 ht hlt hnd hrec => simp

/-- Helper: a chain survives a store to a word that is no chain member's
link word. -/
theorem chain_wf_set (ns : Nat) (v : List Int) (off : Int) (ch : List Nat)
    (j : Nat) (x : Int) (hwf : chain_wf ns v off ch)
    (hj : ∀ t ∈ ch, t * ns + 1 ≠ j) : chain_wf ns (v.set j x) off ch := by
  induction hwf with
  | nil => exact chain_wf.nil
  | cons t ch ht hlen hnd hrec ih =>
    have hne : t * ns + 1 ≠ j := hj t (List.mem_cons_self t ch)
    refine chain_wf.cons t ch ht (by simpa using hlen) hnd ?_
    rw [getD_set_ne v j (t * ns + 1) x (fun h => hne h.symm)]
    exact ih (fun u hu => hj u (List.mem_cons_of_mem t hu))

/-- Helper: on a well-formed chain, the chain-clearing walk of
`regex_reset_match` writes `-1` into exactly the link words of the chain's
slots. -/
theorem clear_chain_go_spec (ns : Nat) (hns : 1 ≤ ns) :
    ∀ (ch : List Nat) (v : List Int) (off : Int) (fuel : Nat),
      chain_wf ns v off ch → ch ≠ [] → ch.length ≤ fuel →
      clear_chain_go fuel off v = clear_marks ns ch v := by
  intro ch
  induction ch with
  | nil => intro v off fuel hwf hne _; exact absurd rfl hne
  | cons t ch ih =>
    intro v off fuel hwf hne hlen
    cases hwf with
    | cons _ _ ht hlt hnd hrec =>
      cases fuel with
      | zero => simp at hlen
      | succ f =>
        rw [clear_chain_go]
        have hoff : (((t * ns * 8 : Nat) : Int) / 8).toNat + 1 = t * ns + 1 := by
          have h8 : ((t * ns * 8 : Nat) : Int) = ((t * ns : Nat) : Int) * 8 := by
            push_cast
            ring
          rw [h8, Int.mul_ediv_cancel _ (by norm_num), Int.toNat_natCast]
        rw [hoff]
        by_cases h0 : v.getD (t * ns + 1) 0 = 0
        · rw [h0]
          simp only [if_pos rfl]
          rw [h0] at hrec
          have hnil : ch = [] := chain_wf_zero_nil ns v ch hns hrec
          subst hnil
          simp [clear_marks]
        · rw [if_neg h0]
          have hcne : ch ≠ [] := chain_wf_ne_nil ns v _ ch hrec h0
          have hrec2 : chain_wf ns (v.set (t * ns + 1) (-1)) (v.getD (t * ns + 1) 0) ch := by
            refine chain_wf_set ns v _ ch (t * ns + 1) (-1) hrec ?_
            intro u hu heq
            have huts : u = t := by
              have hmul : u * ns = t * ns := by omega
              exact Nat.eq_of_mul_eq_mul_right (by omega) hmul
            exact hnd (huts ▸ hu)
          rw [ih (v.set (t * ns + 1) (-1)) (v.getD (t * ns + 1) 0) f hrec2 hcne
            (by simp at hlen ⊢; omega)]
          simp [clear_marks]

/-- Helper: one seed's stores keep the vector length. -/
theorem apply_seed_length (ns : Nat) (v : List Int) (s : InitSeed) :
    (apply_seed ns v s).length = v.length := by
  unfold apply_seed
  cases s.w2 <;> cases s.w3 <;> simp

/-- Helper: the init stub's stores keep the vector length. -/
theorem apply_seeds_length (ns : Nat) (seeds : List InitSeed) :
    ∀ v : List Int, (seeds.foldl (apply_seed ns) v).length = v.length := by
  induction seeds with
  | nil => intro v; rfl
  | cons s t ih => intro v; rw [List.foldl_cons, ih, apply_seed_length]

/-- Helper: a word no store of the seed targets is unchanged. -/
theorem apply_seed_getD_untouched (ns : Nat) (v : List Int) (s : InitSeed) (i : Nat)
    (h : ¬ seed_writes ns s i) : (apply_seed ns v s).getD i 0 = v.getD i 0 := by
  unfold seed_writes at h
  push_neg at h
  obtain ⟨h1, h2, h3⟩ := h
  unfold apply_seed
  cases hw2 : s.w2 with
  | none =>
    cases hw3 : s.w3 with
    | none => exact getD_set_ne _ _ _ _ (fun he => h1 he.symm)
    | some x3 =>
      rw [getD_set_ne _ _ _ _ (fun he => (h3 (by simp [hw3])) he.symm),
        getD_set_ne _ _ _ _ (fun he => h1 he.symm)]
  | some x2 =>
    cases hw3 : s.w3 with
    | none =>
      rw [getD_set_ne _ _ _ _ (fun he => (h2 (by simp [hw2])) he.symm),
        getD_set_ne _ _ _ _ (fun he => h1 he.symm)]
    | some x3 =>
      rw [getD_set_ne _ _ _ _ (fun he => (h3 (by simp [hw3])) he.symm),
        getD_set_ne _ _ _ _ (fun he => (h2 (by simp [hw2])) he.symm),
        getD_set_ne _ _ _ _ (fun he => h1 he.symm)]


/-- Helper: the link word the seed stores. -/
theorem apply_seed_getD_w1 (ns : Nat) (v : List Int) (s : InitSeed)
    (h : s.t * ns + 1 < v.length) :
    (apply_seed ns v s).getD (s.t * ns + 1) 0 = s.link := by
  unfold apply_seed
  cases hw2 : s.w2 with
  | none =>
    cases hw3 : s.w3 with
    | none => exact getD_set_self _ _ _ h
    | some x3 =>
      rw [getD_set_ne _ _ _ _ (by omega)]
      exact getD_set_self _ _ _ h
  | some x2 =>
    cases hw3 : s.w3 with
    | none =>
      rw [getD_set_ne _ _ _ _ (by omega)]
      exact getD_set_self _ _ _ h
    | some x3 =>
      rw [getD_set_ne _ _ _ _ (by omega), getD_set_ne _ _ _ _ (by omega)]
      exact getD_set_self _ _ _ h

/-- Helper: the second word the seed stores, when it stores one. -/
theorem apply_seed_getD_w2 (ns : Nat) (v : List Int) (s : InitSeed) (x2 : Int)
    (hw2 : s.w2 = some x2) (h : s.t * ns + 2 < v.length) :
    (apply_seed ns v s).getD (s.t * ns + 2) 0 = x2 := by
  unfold apply_seed
  rw [hw2]
  cases hw3 : s.w3 with
  | none => exact getD_set_self _ _ _ (by simp only [List.length_set]; omega)
  | some x3 =>
    rw [getD_set_ne _ _ _ _ (by omega)]
    exact getD_set_self _ _ _ (by simp only [List.length_set]; omega)

/-- Helper: the third word the seed stores, when it stores one. -/
theorem apply_seed_getD_w3 (ns : Nat) (v : List Int) (s : InitSeed) (x3 : Int)
    (hw3 : s.w3 = some x3) (h : s.t * ns + 3 < v.length) :
    (apply_seed ns v s).getD (s.t * ns + 3) 0 = x3 := by
  unfold apply_seed
  rw [hw3]
  cases hw2 : s.w2 with
  | none => exact getD_set_self _ _ _ (by simp only [List.length_set]; omega)
  | some x2 => exact getD_set_self _ _ _ (by simp only [List.length_set]; omega)

/-- Helper: one seed's stores preserve pointwise agreement of two vectors of
equal length. -/
theorem apply_seed_agree (ns : Nat) (v w : List Int) (s : InitSeed) (i : Nat)
    (hlen : v.length = w.length) (h : v.getD i 0 = w.getD i 0) :
    (apply_seed ns v s).getD i 0 = (apply_seed ns w s).getD i 0 := by
  by_cases hv : i < v.length
  · by_cases hw : seed_writes ns s i
    · rcases hw with h1 | ⟨hs2, h2⟩ | ⟨hs3, h3⟩
      · subst h1
        rw [apply_seed_getD_w1 ns v s hv, apply_seed_getD_w1 ns w s (hlen ▸ hv)]
      · subst h2
        obtain ⟨x2, hw2⟩ := Option.isSome_iff_exists.mp hs2
        rw [apply_seed_getD_w2 ns v s x2 hw2 hv, apply_seed_getD_w2 ns w s x2 hw2 (hlen ▸ hv)]
      · subst h3
        obtain ⟨x3, hw3⟩ := Option.isSome_iff_exists.mp hs3
        rw [apply_seed_getD_w3 ns v s x3 hw3 hv, apply_seed_getD_w3 ns w s x3 hw3 (hlen ▸ hv)]
    · rw [apply_seed_getD_untouched ns v s i hw, apply_seed_getD_untouched ns w s i hw, h]
  · rw [List.getD_eq_default _ _ (by rw [apply_seed_length]; omega),
      List.getD_eq_default _ _ (by rw [apply_seed_length]; omega)]

/-- Helper: at a word some seed stores to, the stored value does not depend
on the previous vector contents. -/
theorem apply_seed_getD_write (ns : Nat) (v w : List Int) (s : InitSeed) (i : Nat)
    (hlen : v.length = w.length) (hw : seed_writes ns s i) (hi : i < v.length) :
    (apply_seed ns v s).getD i 0 = (apply_seed ns w s).getD i 0 := by
  rcases hw with h1 | ⟨hs2, h2⟩ | ⟨hs3, h3⟩
  · subst h1
    rw [apply_seed_getD_w1 ns v s hi, apply_seed_getD_w1 ns w s (hlen ▸ hi)]
  · subst h2
    obtain ⟨x2, hw2⟩ := Option.isSome_iff_exists.mp hs2
    rw [apply_seed_getD_w2 ns v s x2 hw2 hi, apply_seed_getD_w2 ns w s x2 hw2 (hlen ▸ hi)]
  · subst h3
    obtain ⟨x3, hw3⟩ := Option.isSome_iff_exists.mp hs3
    rw [apply_seed_getD_w3 ns v s x3 hw3 hi, apply_seed_getD_w3 ns w s x3 hw3 (hlen ▸ hi)]

/-- Helper: the init stub's stores preserve pointwise agreement. -/
theorem apply_seeds_agree (ns : Nat) (seeds : List InitSeed) :
    ∀ (v w : List Int) (i : Nat), v.length = w.length → v.getD i 0 = w.getD i 0 →
      (seeds.foldl (apply_seed ns) v).getD i 0 = (seeds.foldl (apply_seed ns) w).getD i 0 := by
  induction seeds with
  | nil => intro v w i _ h; exact h
  | cons s t ih =>
    intro v w i hlen h
    rw [List.foldl_cons, List.foldl_cons]
    exact ih _ _ i (by rw [apply_seed_length, apply_seed_length, hlen])
      (apply_seed_agree ns v w s i hlen h)

/-- Helper: a word no seed stores to keeps its pre-init value. -/
theorem apply_seeds_untouched (ns : Nat) (seeds : List InitSeed) :
    ∀ (v : List Int) (i : Nat), (∀ s ∈ seeds, ¬ seed_writes ns s i) →
      (seeds.foldl (apply_seed ns) v).getD i 0 = v.getD i 0 := by
  induction seeds with
  | nil => intro v i _; rfl
  | cons s t ih =>
    intro v i h
    rw [List.foldl_cons, ih _ i (fun u hu => h u (List.mem_cons_of_mem s hu)),
      apply_seed_getD_untouched ns v s i (h s (List.mem_cons_self s t))]

/-- Helper: a word some seed stores to ends up equal for any two starting
vectors of equal length. -/
theorem apply_seeds_written (ns : Nat) (seeds : List InitSeed) :
    ∀ (v w : List Int) (i : Nat), v.length = w.length → i < v.length →
      (∃ s ∈ seeds, seed_writes ns s i) →
      (seeds.foldl (apply_seed ns) v).getD i 0 = (seeds.foldl (apply_seed ns) w).getD i 0 := by
  induction seeds with
  | nil => intro v w i _ _ h; simp at h
  | cons s t ih =>
    intro v w i hlen hi hex
    rw [List.foldl_cons, List.foldl_cons]
    by_cases hw : seed_writes ns s i
    · exact apply_seeds_agree ns t _ _ i
        (by rw [apply_seed_length, apply_seed_length, hlen])
        (apply_seed_getD_write ns v w s i hlen hw hi)
    · rcases hex with ⟨u, hu, hwu⟩
      rcases List.mem_cons.mp hu with rfl | hut
      · exact absurd hwu hw
      · exact ih _ _ i (by rw [apply_seed_length, apply_seed_length, hlen])
          (by rw [apply_seed_length]; exact hi) ⟨u, hut, hwu⟩

/-- Helper: clearing marks keeps the vector length. -/
theorem clear_marks_length (ns : Nat) (ch : List Nat) :
    ∀ v : List Int, (clear_marks ns ch v).length = v.length := by
  induction ch with
  | nil => intro v; rfl
  | cons t ch ih =>
    intro v
    unfold clear_marks at ih ⊢
    rw [List.foldl_cons, ih, List.length_set]

/-- Helper: clearing marks leaves every word that is no chain member's link
word unchanged. -/
theorem clear_marks_getD_other (ns : Nat) (ch : List Nat) :
    ∀ (v : List Int) (i : Nat), (∀ t ∈ ch, t * ns + 1 ≠ i) →
      (clear_marks ns ch v).getD i 0 = v.getD i 0 := by
  induction ch with
  | nil => intro v i _; rfl
  | cons t ch ih =>
    intro v i h
    unfold clear_marks at ih ⊢
    rw [List.foldl_cons, ih _ i (fun u hu => h u (List.mem_cons_of_mem t hu)),
      getD_set_ne _ _ _ _ (h t (List.mem_cons_self t ch))]

/-- Helper: a `-1` written anywhere survives the clearing walk (it only ever
writes `-1`). -/
theorem clear_marks_getD_neg (ns : Nat) (ch : List Nat) :
    ∀ (v : List Int) (i : Nat), v.getD i 0 = -1 →
      (clear_marks ns ch v).getD i 0 = -1 := by
  induction ch with
  | nil => intro v i h; exact h
  | cons t ch ih =>
    intro v i h
    unfold clear_marks at ih ⊢
    rw [List.foldl_cons]
    refine ih _ i ?_
    by_cases he : t * ns + 1 = i
    · subst he
      by_cases hlt : t * ns + 1 < v.length
      · exact getD_set_self _ _ _ hlt
      · exfalso
        rw [List.getD_eq_default _ _ (by omega)] at h
        exact absurd h (by norm_num)
    · rw [getD_set_ne _ _ _ _ he, h]

/-- Helper: the link word of a chain member is `-1` after the clearing
walk. -/
theorem clear_marks_getD_mem (ns : Nat) (ch : List Nat) :
    ∀ (v : List Int) (t : Nat), t ∈ ch → t * ns + 1 < v.length →
      (clear_marks ns ch v).getD (t * ns + 1) 0 = -1 := by
  induction ch with
  | nil => intro v t h; simp at h
  | cons u ch ih =>
    intro v t hmem hlt
    unfold clear_marks at ih ⊢
    rw [List.foldl_cons]
    rcases List.mem_cons.mp hmem with rfl | hmt
    · refine clear_marks_getD_neg ns ch _ _ (getD_set_self _ _ _ hlt)
    · exact ih _ t hmt (by simp only [List.length_set]; exact hlt)

/-- Helper: the length of one slot's init pattern is the state width. -/
theorem slot_pattern_length (ns : Nat) (a : Int) (h2 : 2 ≤ ns) (h4 : ns ≤ 4) :
    (slot_pattern ns a).length = ns := by
  interval_cases ns <;> rfl

/-- Helper: the words of one slot's init pattern. -/
theorem slot_pattern_getD (ns : Nat) (a : Int) (h2 : 2 ≤ ns) (h4 : ns ≤ 4) :
    (slot_pattern ns a).getD 0 0 = a ∧ (slot_pattern ns a).getD 1 0 = -1 ∧
      ∀ k, 2 ≤ k → (slot_pattern ns a).getD k 0 = 0 := by
  interval_cases ns <;> refine ⟨rfl, rfl, fun k hk => ?_⟩
  · exact List.getD_eq_default _ _ (by simp only [slot_pattern, List.length_cons, List.length_nil]; omega)
  · match k, hk with
    | 2, _ => rfl
    | k + 3, _ => exact List.getD_eq_default _ _ (by simp only [slot_pattern, List.length_cons, List.length_nil]; omega)
  · match k, hk with
    | 2, _ => rfl
    | 3, _ => rfl
    | k + 4, _ => exact List.getD_eq_default _ _ (by simp only [slot_pattern, List.length_cons, List.length_nil]; omega)

/-- Helper: the length of the vector `regex_begin_match` initializes. -/
theorem init_vector_go_length (ns : Nat) (h2 : 2 ≤ ns) (h4 : ns ≤ 4) :
    ∀ addrs : List Int, (init_vector_go ns addrs).length = addrs.length * ns := by
  intro addrs
  induction addrs with
  | nil => simp [init_vector_go]
  | cons a rest ih =>
    unfold init_vector_go
    rw [List.length_append, ih, slot_pattern_length ns a h2 h4, List.length_cons]
    ring

/-- Helper: slotwise reading of the vector `regex_begin_match`
initializes. -/
theorem init_vector_go_getD (ns : Nat) (h2 : 2 ≤ ns) (h4 : ns ≤ 4) :
    ∀ (addrs : List Int) (t k : Nat), t < addrs.length → k < ns →
      (init_vector_go ns addrs).getD (t * ns + k) 0 =
        (slot_pattern ns (addrs.getD t 0)).getD k 0 := by
  intro addrs
  induction addrs with
  | nil => intro t k ht _; simp at ht
  | cons a rest ih =>
    intro t k ht hk
    unfold init_vector_go
    cases t with
    | zero =>
      simp only [Nat.zero_mul, Nat.zero_add]
      rw [List.getD_append _ _ _ _ (by rw [slot_pattern_length ns a h2 h4]; omega)]
      rfl
    | succ t =>
      have hsp := slot_pattern_length ns a h2 h4
      rw [List.getD_append_right _ _ _ _ (by rw [hsp]; ring_nf; omega)]
      have harith : (t + 1) * ns + k - (slot_pattern ns a).length = t * ns + k := by
        rw [hsp]; ring_nf; omega
      rw [harith, ih t k (by simpa using ht) hk]
      rfl

/-- Helper: observable agreement read at an arbitrary flat index. -/
theorem vec_obs_getD (ns : Nat) (v w : List Int) (h : vec_obs_eq ns v w)
    (hns : 0 < ns) (i : Nat)
    (hg : i % ns ≤ 1 ∨ v.getD (i / ns * ns + 1) 0 ≠ -1 ∨ w.getD (i / ns * ns + 1) 0 ≠ -1) :
    v.getD i 0 = w.getD i 0 := by
  have hdm : i / ns * ns + i % ns = i := by
    rw [Nat.mul_comm (i / ns) ns]
    exact Nat.div_add_mod i ns
  by_cases hlen : i < v.length
  · have := h.2 (i / ns) (i % ns) (Nat.mod_lt _ hns) (by rw [hdm]; exact hlen)
    rw [hdm] at this
    exact this hg
  · rw [List.getD_eq_default _ _ (by omega),
      List.getD_eq_default _ _ (by rw [← h.1]; omega)]

/-- Helper: a well-formed chain has no repeated slots. -/
theorem chain_wf_nodup (ns : Nat) (v : List Int) (off : Int) (ch : List Nat)
    (h : chain_wf ns v off ch) : ch.Nodup := by
  induction h with
  | nil => exact List.nodup_nil
  | cons t ch ht hlt hnd hrec ih => exact List.nodup_cons.mpr ⟨hnd, ih⟩

/-- Helper: every chain slot's link word is inside the vector. -/
theorem chain_wf_mem_lt (ns : Nat) (v : List Int) (off : Int) (ch : List Nat)
    (h : chain_wf ns v off ch) : ∀ t ∈ ch, t * ns + 1 < v.length := by
  induction h with
  | nil => intro t ht; simp at ht
  | cons u ch hu hlt hnd hrec ih =>
    intro t ht
    rcases List.mem_cons.mp ht with rfl | hmem
    · exact hlt
    · exact ih t hmem

/-- Helper: every chain slot is positive (slot 0 is never chained). -/
theorem chain_wf_mem_pos (ns : Nat) (v : List Int) (off : Int) (ch : List Nat)
    (h : chain_wf ns v off ch) : ∀ t ∈ ch, 0 < t := by
  induction h with
  | nil => intro t ht; simp at ht
  | cons u ch hu hlt hnd hrec ih =>
    intro t ht
    rcases List.mem_cons.mp ht with rfl | hmem
    · exact hu
    · exact ih t hmem

/-- Helper: a well-formed chain is no longer than the vector. -/
theorem chain_wf_length_le (ns : Nat) (hns : 1 ≤ ns) (v : List Int) (off : Int)
    (ch : List Nat) (h : chain_wf ns v off ch) : ch.length ≤ v.length := by
  have hnd := chain_wf_nodup ns v off ch h
  have hmem := chain_wf_mem_lt ns v off ch h
  have hsub : ch.toFinset ⊆ Finset.range v.length := by
    intro t ht
    rw [List.mem_toFinset] at ht
    rw [Finset.mem_range]
    have h1 := hmem t ht
    have h2 : t ≤ t * ns := Nat.le_mul_of_pos_right t hns
    omega
  calc ch.length = ch.toFinset.card := (List.toFinset_card_of_nodup hnd).symm
    _ ≤ (Finset.range v.length).card := Finset.card_le_card hsub
    _ = v.length := Finset.card_range _

/-- Helper: the conditional chain walk of `regex_reset_match` equals the
direct description `clear_marks` on a well-formed chain. -/
theorem reset_cur_eq_clear_marks (ns : Nat) (hns : 1 ≤ ns) (m : regex_match_t)
    (ch : List Nat) (hwf : chain_wf ns m.current m.head ch) :
    (if m.head ≠ 0 then clear_chain_go (m.current.length + 1) m.head m.current
     else m.current) = clear_marks ns ch m.current := by
  by_cases h0 : m.head = 0
  · rw [if_neg (by simpa using h0)]
    have hnil := chain_wf_zero_nil ns m.current ch hns (h0 ▸ hwf)
    subst hnil
    rfl
  · rw [if_pos h0]
    exact clear_chain_go_spec ns hns ch m.current m.head _ hwf
      (chain_wf_ne_nil ns _ _ _ hwf h0)
      (by have := chain_wf_length_le ns hns m.current m.head ch hwf; omega)

/-- Helper: two words of distinct in-slot offsets never alias. -/
theorem slot_word_ne (ns u t k j : Nat) (hk : k < ns) (hj : j < ns)
    (hne : k ≠ j) : u * ns + k ≠ t * ns + j := by
  intro heq
  have h1 : (u * ns + k) % ns = k := by
    rw [Nat.mul_comm u ns, Nat.mul_add_mod]
    exact Nat.mod_eq_of_lt hk
  have h2 : (t * ns + j) % ns = j := by
    rw [Nat.mul_comm t ns, Nat.mul_add_mod]
    exact Nat.mod_eq_of_lt hj
  rw [heq, h2] at h1
  exact hne h1.symm

/-- Helper: observable agreement is reflexive. -/
theorem vec_obs_eq_refl (ns : Nat) (v : List Int) : vec_obs_eq ns v v :=
  ⟨rfl, fun _ _ _ _ _ => rfl⟩

/-- Helper: word 2 agrees whenever the END slot is active. -/
theorem vec_obs_getD_two (ns : Nat) (v w : List Int) (h : vec_obs_eq ns v w)
    (h2 : 2 ≤ ns) (hA : v.getD 1 0 ≠ -1) : v.getD 2 0 = w.getD 2 0 := by
  by_cases hns : ns = 2
  · subst hns
    exact vec_obs_getD 2 v w h (by omega) 2 (Or.inl (by norm_num))
  · refine vec_obs_getD ns v w h (by omega) 2 (Or.inr (Or.inl ?_))
    have hd : 2 / ns = 0 := Nat.div_eq_of_lt (by omega)
    rw [hd]
    simpa using hA

/-- Helper: word 3 agrees whenever the END slot is active. -/
theorem vec_obs_getD_three (ns : Nat) (v w : List Int) (h : vec_obs_eq ns v w)
    (h2 : 2 ≤ ns) (h4 : ns ≤ 4) (hA : v.getD 1 0 ≠ -1) :
    v.getD 3 0 = w.getD 3 0 := by
  interval_cases ns
  · exact vec_obs_getD 2 v w h (by omega) 3 (Or.inl (by norm_num))
  · exact vec_obs_getD 3 v w h (by omega) 3 (Or.inl (by norm_num))
  · refine vec_obs_getD 4 v w h (by omega) 3 (Or.inr (Or.inl ?_))
    have hd : 3 / 4 = 0 := by norm_num
    rw [hd]
    simpa using hA

/-- Helper: `regex_get_result` only reads the observable part of a match
record, so observably equal records report the same result. -/
theorem regex_get_result_obs (ns : Nat) (flags : RFlags) (m1 m2 : regex_match_t)
    (h2 : 2 ≤ ns) (h4 : ns ≤ 4) (h : match_obs_eq ns m1 m2) :
    regex_get_result flags m1 = regex_get_result flags m2 := by
  obtain ⟨hc, hn, hh, hidx, hbb, hbe, hbi, hfq, hff⟩ := h
  have e1 : m1.current.getD 1 0 = m2.current.getD 1 0 :=
    vec_obs_getD ns _ _ hc (by omega) 1 (Or.inl (Nat.mod_le 1 ns))
  have e2 : m1.current.getD 1 0 ≠ -1 → m1.current.getD 2 0 = m2.current.getD 2 0 :=
    fun hA => vec_obs_getD_two ns _ _ hc h2 hA
  have e3 : m1.current.getD 1 0 ≠ -1 → m1.current.getD 3 0 = m2.current.getD 3 0 :=
    fun hA => vec_obs_getD_three ns _ _ hc h2 h4 hA
  unfold regex_get_result
  rw [hidx, hbb, hbe, hbi, hh]
  split_ifs <;> simp_all

/-- Helper: after a reset on a well-formed match record, the re-seeded
current vector is observably equal to the freshly initialized re-seeded
one. -/
theorem reset_vs_fresh_current (mach : MachineModel) (m : regex_match_t)
    (ch : List Nat)
    (h2 : 2 ≤ mach.no_states) (h4 : mach.no_states ≤ 4)
    (hterms : mach.entry_addrs.length = mach.terms_size)
    (hseedwf : ∀ s ∈ mach.init_seeds, s.t < mach.terms_size ∧
      (s.w2.isSome ↔ 3 ≤ mach.no_states) ∧ (s.w3.isSome ↔ mach.no_states = 4))
    (hlen : m.current.length = mach.terms_size * mach.no_states)
    (hw0 : ∀ t, t < mach.terms_size →
      m.current.getD (t * mach.no_states) 0 = mach.entry_addrs.getD t 0)
    (hwf : chain_wf mach.no_states m.current m.head ch)
    (hcov : ∀ t, 0 < t → t < mach.terms_size →
      m.current.getD (t * mach.no_states + 1) 0 ≠ -1 → t ∈ ch)
    (hslot0 : m.current.getD 1 0 = -1) :
    vec_obs_eq mach.no_states
      (mach.init_seeds.foldl (apply_seed mach.no_states)
        (clear_marks mach.no_states ch m.current))
      (mach.init_seeds.foldl (apply_seed mach.no_states) (init_vector mach)) := by
  have hpos := chain_wf_mem_pos mach.no_states m.current m.head ch hwf
  have hcm_len : (clear_marks mach.no_states ch m.current).length = m.current.length :=
    clear_marks_length mach.no_states ch m.current
  have hiv_len : (init_vector mach).length = mach.terms_size * mach.no_states := by
    unfold init_vector
    rw [init_vector_go_length mach.no_states h2 h4, hterms]
  have hub : ∀ u : Nat, u < mach.terms_size →
      u * mach.no_states + 1 < m.current.length := by
    intro u hu
    have h5 := Nat.mul_le_mul_right mach.no_states (Nat.succ_le_of_lt hu)
    rw [Nat.succ_mul] at h5
    omega
  have hclear1 : ∀ u : Nat, u < mach.terms_size →
      (clear_marks mach.no_states ch m.current).getD (u * mach.no_states + 1) 0 = -1 := by
    intro u hu
    by_cases hmem : u ∈ ch
    · exact clear_marks_getD_mem mach.no_states ch m.current u hmem (hub u hu)
    · rw [clear_marks_getD_other mach.no_states ch m.current (u * mach.no_states + 1)
        (fun w hw heq => ?_)]
      · rcases Nat.eq_zero_or_pos u with rfl | hupos
        · simpa using hslot0
        · by_cases hact : m.current.getD (u * mach.no_states + 1) 0 = -1
          · exact hact
          · exact absurd (hcov u hupos hu hact) hmem
      · have hwu : w = u := by
          have hmul : w * mach.no_states = u * mach.no_states := by omega
          exact Nat.eq_of_mul_eq_mul_right (by omega) hmul
        exact hmem (hwu ▸ hw)
  have hiv1 : ∀ u : Nat, u < mach.terms_size →
      (init_vector mach).getD (u * mach.no_states + 1) 0 = -1 := by
    intro u hu
    unfold init_vector
    rw [init_vector_go_getD mach.no_states h2 h4 mach.entry_addrs u 1
      (by omega) (by omega)]
    exact (slot_pattern_getD mach.no_states _ h2 h4).2.1
  refine ⟨by rw [apply_seeds_length, apply_seeds_length, hcm_len, hiv_len, hlen], ?_⟩
  intro t k hk hi hguard
  rw [apply_seeds_length, hcm_len, hlen] at hi
  have ht : t < mach.terms_size := by
    have h5 : t * mach.no_states < mach.terms_size * mach.no_states := by omega
    exact Nat.lt_of_mul_lt_mul_right h5
  by_cases hex : ∃ s ∈ mach.init_seeds, seed_writes mach.no_states s (t * mach.no_states + k)
  · exact apply_seeds_written mach.no_states mach.init_seeds _ _ _
      (by rw [hcm_len, hiv_len, hlen]) (by rw [hcm_len, hlen]; exact hi) hex
  · push_neg at hex
    rw [apply_seeds_untouched mach.no_states mach.init_seeds _ _ hex,
      apply_seeds_untouched mach.no_states mach.init_seeds _ _ hex]
    have hk4 : k < 4 := lt_of_lt_of_le hk h4
    interval_cases k
    · rw [clear_marks_getD_other mach.no_states ch m.current _
        (fun w hw => slot_word_ne mach.no_states w t 1 0 (by omega) (by omega) (by omega)),
        Nat.add_zero, hw0 t ht]
      unfold init_vector
      have hgo := init_vector_go_getD mach.no_states h2 h4 mach.entry_addrs t 0
        (by omega) (by omega)
      rw [Nat.add_zero] at hgo
      rw [hgo]
      exact ((slot_pattern_getD mach.no_states _ h2 h4).1).symm
    · rw [hclear1 t ht, hiv1 t ht]
    · exfalso
      have hns3 : 3 ≤ mach.no_states := hk
      have hall1 : ∀ s ∈ mach.init_seeds,
          ¬ seed_writes mach.no_states s (t * mach.no_states + 1) := by
        intro s hs hwr
        obtain ⟨hst, hw2iff, hw3iff⟩ := hseedwf s hs
        rcases hwr with hA | ⟨hB, hBe⟩ | ⟨hC, hCe⟩
        · have hst' : s.t = t := by
            have hmul : s.t * mach.no_states = t * mach.no_states := by omega
            exact Nat.eq_of_mul_eq_mul_right (by omega) hmul
          exact hex s hs (Or.inr (Or.inl ⟨hw2iff.mpr hns3, by rw [hst']⟩))
        · exact slot_word_ne mach.no_states s.t t 2 1 (by omega) (by omega) (by omega) hBe.symm
        · have hns4 : mach.no_states = 4 := hw3iff.mp hC
          exact slot_word_ne mach.no_states s.t t 3 1 (by omega) (by omega) (by omega) hCe.symm
      have hL : (mach.init_seeds.foldl (apply_seed mach.no_states)
          (clear_marks mach.no_states ch m.current)).getD (t * mach.no_states + 1) 0 = -1 := by
        rw [apply_seeds_untouched mach.no_states mach.init_seeds _ _ hall1]
        exact hclear1 t ht
      have hR : (mach.init_seeds.foldl (apply_seed mach.no_states)
          (init_vector mach)).getD (t * mach.no_states + 1) 0 = -1 := by
        rw [apply_seeds_untouched mach.no_states mach.init_seeds _ _ hall1]
        exact hiv1 t ht
      rcases hguard with hg1 | hg2 | hg3
      · omega
      · exact hg2 hL
      · exact hg3 hR
    · exfalso
      have hns4 : mach.no_states = 4 := by omega
      have hall1 : ∀ s ∈ mach.init_seeds,
          ¬ seed_writes mach.no_states s (t * mach.no_states + 1) := by
        intro s hs hwr
        obtain ⟨hst, hw2iff, hw3iff⟩ := hseedwf s hs
        rcases hwr with hA | ⟨hB, hBe⟩ | ⟨hC, hCe⟩
        · have hst' : s.t = t := by
            have hmul : s.t * mach.no_states = t * mach.no_states := by omega
            exact Nat.eq_of_mul_eq_mul_right (by omega) hmul
          exact hex s hs (Or.inr (Or.inr ⟨hw3iff.mpr hns4, by rw [hst']⟩))
        · exact slot_word_ne mach.no_states s.t t 2 1 (by omega) (by omega) (by omega) hBe.symm
        · exact slot_word_ne mach.no_states s.t t 3 1 (by omega) (by omega) (by omega) hCe.symm
      have hL : (mach.init_seeds.foldl (apply_seed mach.no_states)
          (clear_marks mach.no_states ch m.current)).getD (t * mach.no_states + 1) 0 = -1 := by
        rw [apply_seeds_untouched mach.no_states mach.init_seeds _ _ hall1]
        exact hclear1 t ht
      have hR : (mach.init_seeds.foldl (apply_seed mach.no_states)
          (init_vector mach)).getD (t * mach.no_states + 1) 0 = -1 := by
        rw [apply_seeds_untouched mach.no_states mach.init_seeds _ _ hall1]
        exact hiv1 t ht
      rcases hguard with hg1 | hg2 | hg3
      · omega
      · exact hg2 hL
      · exact hg3 hR

/-- **C9** (corrected).  Resetting an existing well-formed match record and
then running any observation-respecting engine is observably equivalent to a
fresh `regex_begin_match` — the `regex_get_result` outputs agree after every
number of steps — PROVIDED the END slot (slot 0) of the current vector is
inactive.  `regex_reset_match` deactivates only the slots linked into the
head chain, and slot 0 can never be chained (offset 0 is the chain
terminator), so without that proviso a recorded END hit survives the reset,
which a fresh match never carries (see the counterexample). -/
theorem C9_reset_equals_fresh (mach : MachineModel) (m : regex_match_t)
    (ch : List Nat) (g : regex_match_t → regex_match_t) (k : Nat)
    (h2 : 2 ≤ mach.no_states) (h4 : mach.no_states ≤ 4)
    (hterms : mach.entry_addrs.length = mach.terms_size)
    (hseedwf : ∀ s ∈ mach.init_seeds, s.t < mach.terms_size ∧
      (s.w2.isSome ↔ 3 ≤ mach.no_states) ∧ (s.w3.isSome ↔ mach.no_states = 4))
    (hlen : m.current.length = mach.terms_size * mach.no_states)
    (hw0 : ∀ t, t < mach.terms_size →
      m.current.getD (t * mach.no_states) 0 = mach.entry_addrs.getD t 0)
    (hwf : chain_wf mach.no_states m.current m.head ch)
    (hcov : ∀ t, 0 < t → t < mach.terms_size →
      m.current.getD (t * mach.no_states + 1) 0 ≠ -1 → t ∈ ch)
    (hslot0 : m.current.getD 1 0 = -1)
    (hnext : vec_obs_eq mach.no_states m.next (init_vector mach))
    (hg : ∀ a b, match_obs_eq mach.no_states a b →
      match_obs_eq mach.no_states (g a) (g b)) :
    regex_get_result mach.flags (Nat.iterate g k (regex_reset_match mach m)) =
    regex_get_result mach.flags (Nat.iterate g k (regex_begin_match mach)) := by
  have hcur := reset_cur_eq_clear_marks mach.no_states (by omega) m ch hwf
  have hreset : regex_reset_match mach m =
      ⟨mach.init_seeds.foldl (apply_seed mach.no_states)
         (clear_marks mach.no_states ch m.current),
       m.next, mach.init_head, 1, -1, 0, 0, 0, 0⟩ := by
    unfold regex_reset_match call_init
    rw [hcur]
  have hfresh : regex_begin_match mach =
      ⟨mach.init_seeds.foldl (apply_seed mach.no_states) (init_vector mach),
       init_vector mach, mach.init_head, 1, -1, 0, 0, 0, 0⟩ := by
    unfold regex_begin_match regex_reset_match call_init
    simp
  have hobs : match_obs_eq mach.no_states (regex_reset_match mach m)
      (regex_begin_match mach) := by
    rw [hreset, hfresh]
    exact ⟨reset_vs_fresh_current mach m ch h2 h4 hterms hseedwf hlen hw0 hwf hcov hslot0,
      hnext, rfl, rfl, rfl, rfl, rfl, rfl, rfl⟩
  have hiter : match_obs_eq mach.no_states
      (Nat.iterate g k (regex_reset_match mach m))
      (Nat.iterate g k (regex_begin_match mach)) := by
    induction k with
    | zero => exact hobs
    | succ n ih =>
      rw [Function.iterate_succ_apply', Function.iterate_succ_apply']
      exact hg _ _ ih
  exact regex_get_result_obs mach.no_states mach.flags _ _ h2 h4 hiter

/-- Witness for C9: a two-term machine of width 3 with term 1 active and
chained; after reset, the result agrees with a fresh match at one engine
step of the identity engine. -/
theorem C9_witness :
    regex_get_result no_flags
      (Nat.iterate id 1 (regex_reset_match
        ⟨no_flags, 3, 2, [100, 200], [⟨1, 0, some 0, none⟩], 24⟩
        ⟨[100, -1, 0, 200, 0, 7],
         init_vector ⟨no_flags, 3, 2, [100, 200], [⟨1, 0, some 0, none⟩], 24⟩,
         24, 1, -1, 0, 0, 0, 0⟩)) =
    regex_get_result no_flags
      (Nat.iterate id 1 (regex_begin_match
        ⟨no_flags, 3, 2, [100, 200], [⟨1, 0, some 0, none⟩], 24⟩)) :=
  C9_reset_equals_fresh
    ⟨no_flags, 3, 2, [100, 200], [⟨1, 0, some 0, none⟩], 24⟩
    ⟨[100, -1, 0, 200, 0, 7],
     init_vector ⟨no_flags, 3, 2, [100, 200], [⟨1, 0, some 0, none⟩], 24⟩,
     24, 1, -1, 0, 0, 0, 0⟩
    [1] id 1 (by norm_num) (by norm_num) rfl (by decide) rfl
    (by intro t ht; interval_cases t <;> rfl)
    (chain_wf.cons 1 [] (by norm_num) (by norm_num) (by simp) chain_wf.nil)
    (by intro t h1 h2 _; interval_cases t; simp)
    rfl (vec_obs_eq_refl _ _) (fun a b h => h)

/-- Counterexample for C9 as claimed: a match whose END slot (slot 0) is
active is NOT equivalent to a fresh match after reset — under
`REGEX_MATCH_END` the stale END flag makes `regex_get_result` report a match
where the fresh machine reports none.  Slot 0 is never in the head chain, so
`regex_reset_match` never deactivates it. -/
theorem C9_counterexample :
    regex_get_result ⟨false, true, false, false, false⟩
      (regex_reset_match
        ⟨⟨false, true, false, false, false⟩, 3, 2, [100, 200],
         [⟨1, 0, some 0, none⟩], 24⟩
        ⟨[100, 0, 0, 200, 0, 7], [100, -1, 0, 200, -1, 0], 24, 1, -1, 0, 0, 0, 0⟩) ≠
    regex_get_result ⟨false, true, false, false, false⟩
      (regex_begin_match
        ⟨⟨false, true, false, false, false⟩, 3, 2, [100, 200],
         [⟨1, 0, some 0, none⟩], 24⟩) := by
  decide

/-- Helper: one unfolding step of the trace loop. -/
theorem trace_go_succ (prog : List stack_item) (types : List Int) (fuel : Nat)
    (p : Nat) (id : Int) (marks : List Int) (out : List Nat)
    (depth : List (Int × Nat)) :
    trace_go prog types (fuel + 1) p id marks out depth =
      (if marks.getD p 0 < id_upd prog p id then
        if (prog.getD p ⟨.type_begin, 0⟩).type = .type_branch then
          trace_go prog types fuel (p + 1) (id_upd prog p id)
            (marks.set p (id_upd prog p id))
            (if marks.getD p 0 = -1 then p :: out else out)
            ((id_upd prog p id, p) :: depth)
        else if (prog.getD p ⟨.type_begin, 0⟩).type = .type_jump then
          trace_go prog types fuel (prog.getD p ⟨.type_begin, 0⟩).value.toNat
            (id_upd prog p id) (marks.set p (id_upd prog p id))
            (if marks.getD p 0 = -1 then p :: out else out) depth
        else if types.getD p 0 < 0 then
          trace_go prog types fuel (p + 1) (id_upd prog p id)
            (marks.set p (id_upd prog p id))
            (if marks.getD p 0 = -1 then p :: out else out) depth
        else
          match depth with
          | [] => some (marks.set p (id_upd prog p id),
              if marks.getD p 0 = -1 then p :: out else out)
          | (id2, bp) :: depth2 =>
            trace_go prog types fuel ((prog.getD bp ⟨.type_begin, 0⟩).value.toNat)
              id2 (marks.set p (id_upd prog p id))
              (if marks.getD p 0 = -1 then p :: out else out) depth2
      else
        match depth with
        | [] => some (marks, out)
        | (id2, bp) :: depth2 =>
          trace_go prog types fuel ((prog.getD bp ⟨.type_begin, 0⟩).value.toNat)
            id2 marks out depth2) := rfl

/-- Helper: the id fold of `max_id` never goes below its seed. -/
theorem max_id_go_le (l : List stack_item) :
    ∀ a : Int, a ≤ l.foldl
      (fun m it => if it.type = .type_id ∧ m < it.value then it.value else m) a := by
  induction l with
  | nil => intro a; exact le_refl a
  | cons it t ih =>
    intro a
    rw [List.foldl_cons]
    refine le_trans ?_ (ih _)
    by_cases h : it.type = .type_id ∧ a < it.value
    · rw [if_pos h]; exact le_of_lt h.2
    · rw [if_neg h]

/-- Helper: the id fold of `max_id` dominates every `type_id` value of the
list. -/
theorem max_id_go_mem (l : List stack_item) :
    ∀ (a : Int) (it : stack_item), it ∈ l → it.type = .type_id →
      it.value ≤ l.foldl
        (fun m u => if u.type = .type_id ∧ m < u.value then u.value else m) a := by
  induction l with
  | nil => intro a it h; simp at h
  | cons u t ih =>
    intro a it hmem hid
    rw [List.foldl_cons]
    rcases List.mem_cons.mp hmem with rfl | hm
    · refine le_trans ?_ (max_id_go_le t _)
      by_cases h : it.type = .type_id ∧ a < it.value
      · rw [if_pos h]
      · rw [if_neg h]
        rw [not_and] at h
        exact le_of_not_lt (h hid)
    · exact ih _ it hm hid

/-- Helper: `max_id` is nonnegative. -/
theorem max_id_nonneg (prog : List stack_item) : 0 ≤ max_id prog :=
  max_id_go_le prog 0

/-- Helper: `max_id` dominates the `type_id` value read at any position. -/
theorem max_id_getD (prog : List stack_item) (p : Nat)
    (h : (prog.getD p ⟨.type_begin, 0⟩).type = .type_id) :
    (prog.getD p ⟨.type_begin, 0⟩).value ≤ max_id prog := by
  by_cases hp : p < prog.length
  · exact max_id_go_mem prog 0 _
      (by rw [List.getD_eq_getElem _ _ hp]; exact List.getElem_mem hp) h
  · rw [List.getD_eq_default _ _ (by omega)] at h
    exact absurd h (by simp)

/-- Helper: the id accumulator never decreases. -/
theorem id_upd_ge (prog : List stack_item) (p : Nat) (a : Int) :
    a ≤ id_upd prog p a := by
  unfold id_upd
  by_cases h : (prog.getD p ⟨.type_begin, 0⟩).type = .type_id ∧
      a < (prog.getD p ⟨.type_begin, 0⟩).value
  · rw [if_pos h]; exact le_of_lt h.2
  · rw [if_neg h]

/-- Helper: the id update is monotone in the accumulator. -/
theorem id_upd_mono (prog : List stack_item) (p : Nat) (a b : Int) (hab : a ≤ b) :
    id_upd prog p a ≤ id_upd prog p b := by
  unfold id_upd
  by_cases ha : (prog.getD p ⟨.type_begin, 0⟩).type = .type_id ∧
      a < (prog.getD p ⟨.type_begin, 0⟩).value
  · rw [if_pos ha]
    by_cases hb : (prog.getD p ⟨.type_begin, 0⟩).type = .type_id ∧
        b < (prog.getD p ⟨.type_begin, 0⟩).value
    · rw [if_pos hb]
    · rw [if_neg hb]
      rw [not_and] at hb
      exact le_of_not_lt (hb ha.1)
  · rw [if_neg ha]
    by_cases hb : (prog.getD p ⟨.type_begin, 0⟩).type = .type_id ∧
        b < (prog.getD p ⟨.type_begin, 0⟩).value
    · rw [if_pos hb]
      exact le_trans hab (le_of_lt hb.2)
    · rw [if_neg hb]
      exact hab

/-- Helper: the id update stays below `max_id`. -/
theorem id_upd_le_max (prog : List stack_item) (p : Nat) (a : Int)
    (ha : a ≤ max_id prog) : id_upd prog p a ≤ max_id prog := by
  unfold id_upd
  by_cases h : (prog.getD p ⟨.type_begin, 0⟩).type = .type_id ∧
      a < (prog.getD p ⟨.type_begin, 0⟩).value
  · rw [if_pos h]
    exact max_id_getD prog p h.1
  · rw [if_neg h]
    exact ha

/-- Helper: a continuable position lies inside the program. -/
theorem can_cont_lt (prog : List stack_item) (types : List Int) (p : Nat)
    (htl : types.length = prog.length) (h : can_cont prog types p) :
    p < prog.length := by
  by_contra hp
  rcases h with h | h | h
  · rw [List.getD_eq_default _ _ (by omega)] at h
    exact absurd h (by simp)
  · rw [List.getD_eq_default _ _ (by omega)] at h
    exact absurd h (by simp)
  · rw [List.getD_eq_default _ _ (by omega)] at h
    exact absurd h (by norm_num)

/-- Helper: walk values are nonnegative. -/
theorem walk_nonneg (prog : List stack_item) (types : List Int) (start : Nat)
    (p : Nat) (v : Int) (h : Walk prog types start p v) : 0 ≤ v := by
  induction h with
  | init => exact le_trans (by norm_num) (id_upd_ge prog (start + 1) 0)
  | step q w r hw hcc hsucc ih => exact le_trans ih (id_upd_ge prog r w)

/-- Helper: the additive effect of a single store on a mapped sum. -/
theorem map_sum_set (f : Int → Nat) (l : List Int) (p : Nat) (x : Int)
    (hp : p < l.length) :
    ((l.set p x).map f).sum + f (l.getD p 0) = (l.map f).sum + f x := by
  induction l generalizing p with
  | nil => simp at hp
  | cons a t ih =>
    cases p with
    | zero => simp [List.set]; omega
    | succ q =>
      simp only [List.set, List.map_cons, List.sum_cons, List.getD_cons_succ]
      have := ih q (by simpa using hp)
      omega

/-- Helper: a store past the end of the list is a no-op. -/
theorem set_out_of_range (l : List Int) (n : Nat) (x : Int) (h : l.length ≤ n) :
    l.set n x = l := by
  induction l generalizing n with
  | nil => rfl
  | cons a t ih =>
    cases n with
    | zero => simp at h
    | succ m =>
      simp only [List.set]
      rw [ih m (by simpa using h)]

/-- Helper: the facts a forward step of the trace loop establishes about the
updated mark column. -/
theorem forward_marks_facts (prog : List stack_item) (types : List Int)
    (start : Nat) (marks : List Int) (p : Nat) (U : Int)
    (hp : p < marks.length) (hfw : marks.getD p 0 < U) (hUM : U ≤ max_id prog)
    (hsound : ∀ q, q < prog.length → marks.getD q 0 ≠ -1 →
       Walk prog types start q (marks.getD q 0))
    (hWpU : Walk prog types start p U) (hml : marks.length = prog.length) :
    (marks.set p U).length = prog.length ∧
    (∀ q, marks.getD q 0 ≤ (marks.set p U).getD q 0) ∧
    (∀ q, q < prog.length → (marks.set p U).getD q 0 ≠ -1 →
       Walk prog types start q ((marks.set p U).getD q 0)) ∧
    ((marks.set p U).map (trace_hr (max_id prog))).sum + 1 ≤
      (marks.map (trace_hr (max_id prog))).sum := by
  have hm1p : (marks.set p U).getD p 0 = U := getD_set_self marks p U hp
  have hm1q : ∀ q, q ≠ p → (marks.set p U).getD q 0 = marks.getD q 0 :=
    fun q hq => getD_set_ne marks p q U (fun he => hq he.symm)
  refine ⟨by rw [List.length_set, hml], ?_, ?_, ?_⟩
  · intro q
    by_cases hq : q = p
    · subst hq; omega
    · rw [hm1q q hq]
  · intro q hql hqne
    by_cases hq : q = p
    · subst hq; rw [hm1p]; exact hWpU
    · rw [hm1q q hq] at hqne ⊢; exact hsound q hql hqne
  · have hsum := map_sum_set (trace_hr (max_id prog)) marks p U hp
    have hhr : trace_hr (max_id prog) U + 1 ≤ trace_hr (max_id prog) (marks.getD p 0) := by
      unfold trace_hr
      omega
    omega

/-- Helper: the trace loop terminates, its marks only grow, every mark is a
walk value, the current position and all pending resumes get marked, and the
final marks are closed under the walk's successor relation. -/
theorem trace_go_spec (prog : List stack_item) (types : List Int) (start : Nat)
    (htl : types.length = prog.length) :
    ∀ (fuel : Nat) (p : Nat) (id : Int) (marks : List Int) (out : List Nat)
      (depth : List (Int × Nat)),
      marks.length = prog.length →
      0 ≤ id → id ≤ max_id prog →
      (∀ vb ∈ depth, 0 ≤ vb.1 ∧ vb.1 ≤ max_id prog ∧
        (prog.getD vb.2 ⟨.type_begin, 0⟩).type = .type_branch ∧
        Walk prog types start vb.2 vb.1) →
      trace_phi (max_id prog) marks depth < fuel →
      Walk prog types start p (id_upd prog p id) →
      (∀ q, q < prog.length → marks.getD q 0 ≠ -1 →
        Walk prog types start q (marks.getD q 0)) →
      (∀ q, q < prog.length → marks.getD q 0 ≠ -1 → can_cont prog types q →
        ∀ r, r ∈ succs prog q → r < prog.length →
          covers prog p id depth marks r (id_upd prog r (marks.getD q 0))) →
      ∃ F O, trace_go prog types fuel p id marks out depth = some (F, O) ∧
        F.length = prog.length ∧
        (∀ q, marks.getD q 0 ≤ F.getD q 0) ∧
        (∀ q, q < prog.length → F.getD q 0 ≠ -1 →
          Walk prog types start q (F.getD q 0)) ∧
        (p < prog.length → id_upd prog p id ≤ F.getD p 0) ∧
        (∀ vb ∈ depth, ∀ r, r = (prog.getD vb.2 ⟨.type_begin, 0⟩).value.toNat →
          r < prog.length → id_upd prog r vb.1 ≤ F.getD r 0) ∧
        (∀ q, q < prog.length → F.getD q 0 ≠ -1 → can_cont prog types q →
          ∀ r, r ∈ succs prog q → r < prog.length →
            id_upd prog r (F.getD q 0) ≤ F.getD r 0) := by
  intro fuel
  induction fuel with
  | zero =>
    intro p id marks out depth hml hid0 hidM hdep hphi hpre hsound hcl
    omega
  | succ f ih =>
    intro p id marks out depth hml hid0 hidM hdep hphi hpre hsound hcl
    rw [trace_go_succ]
    by_cases hfw : marks.getD p 0 < id_upd prog p id
    · rw [if_pos hfw]
      have hUge := id_upd_ge prog p id
      have hU0 : 0 ≤ id_upd prog p id := le_trans hid0 hUge
      have hUM : id_upd prog p id ≤ max_id prog := id_upd_le_max prog p id hidM
      by_cases hbr : (prog.getD p ⟨.type_begin, 0⟩).type = .type_branch
      · rw [if_pos hbr]
        have hplt : p < prog.length := by
          by_contra hp
          rw [List.getD_eq_default _ _ (by omega)] at hbr
          exact absurd hbr (by simp)
        obtain ⟨hm1len, hm1mono, hm1sound, hm1sum⟩ :=
          forward_marks_facts prog types start marks p (id_upd prog p id)
            (by omega) hfw hUM hsound hpre hml
        have hccp : can_cont prog types p := Or.inl hbr
        have hsuccp1 : p + 1 ∈ succs prog p := by
          unfold succs
          rw [if_pos hbr]
          exact List.mem_cons_self _ _
        have hpre1 : Walk prog types start (p + 1)
            (id_upd prog (p + 1) (id_upd prog p id)) :=
          Walk.step p (id_upd prog p id) (p + 1) hpre hccp hsuccp1
        have hdep1 : ∀ vb ∈ (id_upd prog p id, p) :: depth,
            0 ≤ vb.1 ∧ vb.1 ≤ max_id prog ∧
            (prog.getD vb.2 ⟨.type_begin, 0⟩).type = .type_branch ∧
            Walk prog types start vb.2 vb.1 := by
          intro vb hvb
          rcases List.mem_cons.mp hvb with rfl | hvb2
          · exact ⟨hU0, hUM, hbr, hpre⟩
          · exact hdep vb hvb2
        have hphi1 : trace_phi (max_id prog)
            (marks.set p (id_upd prog p id)) ((id_upd prog p id, p) :: depth) < f := by
          unfold trace_phi at hphi ⊢
          simp only [List.length_cons]
          omega
        have hcl1 : ∀ q, q < prog.length →
            (marks.set p (id_upd prog p id)).getD q 0 ≠ -1 → can_cont prog types q →
            ∀ r, r ∈ succs prog q → r < prog.length →
            covers prog (p + 1) (id_upd prog p id) ((id_upd prog p id, p) :: depth)
              (marks.set p (id_upd prog p id)) r
              (id_upd prog r ((marks.set p (id_upd prog p id)).getD q 0)) := by
          intro q hql hqne hqcc r hr hrl
          by_cases hq : q = p
          · subst hq
            rw [getD_set_self marks q _ (by omega)]
            unfold succs at hr
            rw [if_pos hbr] at hr
            rcases List.mem_cons.mp hr with rfl | hr2
            · exact Or.inr (Or.inl ⟨rfl, le_refl _⟩)
            · have hrt : r = (prog.getD q ⟨.type_begin, 0⟩).value.toNat := by
                simpa using hr2
              subst hrt
              exact Or.inr (Or.inr ⟨(id_upd prog q id, q), List.mem_cons_self _ _,
                rfl, le_refl _⟩)
          · rw [getD_set_ne marks p q _ (fun he => hq he.symm)] at hqne ⊢
            have hold := hcl q hql hqne hqcc r hr hrl
            rcases hold with h1 | ⟨hrp, hw⟩ | ⟨vb, hvb, hrv, hw⟩
            · exact Or.inl (le_trans h1 (hm1mono r))
            · subst hrp
              refine Or.inl ?_
              rw [getD_set_self marks r _ (by omega)]
              exact hw
            · exact Or.inr (Or.inr ⟨vb, List.mem_cons_of_mem _ hvb, hrv, hw⟩)
        obtain ⟨F, O, heq, hFlen, hFmono, hFsound, hFcur, hFdep, hFcl⟩ :=
          ih (p + 1) (id_upd prog p id) (marks.set p (id_upd prog p id))
            (if marks.getD p 0 = -1 then p :: out else out)
            ((id_upd prog p id, p) :: depth)
            hm1len hU0 hUM hdep1 hphi1 hpre1 hm1sound hcl1
        refine ⟨F, O, heq, hFlen, ?_, hFsound, ?_, ?_, hFcl⟩
        · intro q
          exact le_trans (hm1mono q) (hFmono q)
        · intro hpl
          have hFm := hFmono p
          rw [getD_set_self marks p _ (by omega)] at hFm
          exact hFm
        · intro vb hvb r hrv hrl
          exact hFdep vb (List.mem_cons_of_mem _ hvb) r hrv hrl
      · rw [if_neg hbr]
        by_cases hjp : (prog.getD p ⟨.type_begin, 0⟩).type = .type_jump
        · rw [if_pos hjp]
          have hplt : p < prog.length := by
            by_contra hp
            rw [List.getD_eq_default _ _ (by omega)] at hjp
            exact absurd hjp (by simp)
          obtain ⟨hm1len, hm1mono, hm1sound, hm1sum⟩ :=
            forward_marks_facts prog types start marks p (id_upd prog p id)
              (by omega) hfw hUM hsound hpre hml
          have hccp : can_cont prog types p := Or.inr (Or.inl hjp)
          have hsucct : (prog.getD p ⟨.type_begin, 0⟩).value.toNat ∈ succs prog p := by
            unfold succs
            rw [if_neg hbr, if_pos hjp]
            simp
          have hpre2 : Walk prog types start
              (prog.getD p ⟨.type_begin, 0⟩).value.toNat
              (id_upd prog (prog.getD p ⟨.type_begin, 0⟩).value.toNat
                (id_upd prog p id)) :=
            Walk.step p (id_upd prog p id) _ hpre hccp hsucct
          have hphi2 : trace_phi (max_id prog)
              (marks.set p (id_upd prog p id)) depth < f := by
            unfold trace_phi at hphi ⊢
            omega
          have hcl2 : ∀ q, q < prog.length →
              (marks.set p (id_upd prog p id)).getD q 0 ≠ -1 → can_cont prog types q →
              ∀ r, r ∈ succs prog q → r < prog.length →
              covers prog (prog.getD p ⟨.type_begin, 0⟩).value.toNat
                (id_upd prog p id) depth (marks.set p (id_upd prog p id)) r
                (id_upd prog r ((marks.set p (id_upd prog p id)).getD q 0)) := by
            intro q hql hqne hqcc r hr hrl
            by_cases hq : q = p
            · subst hq
              rw [getD_set_self marks q _ (by omega)]
              unfold succs at hr
              rw [if_neg hbr, if_pos hjp] at hr
              have hrt : r = (prog.getD q ⟨.type_begin, 0⟩).value.toNat := by
                simpa using hr
              subst hrt
              exact Or.inr (Or.inl ⟨rfl, le_refl _⟩)
            · rw [getD_set_ne marks p q _ (fun he => hq he.symm)] at hqne ⊢
              have hold := hcl q hql hqne hqcc r hr hrl
              rcases hold with h1 | ⟨hrp, hw⟩ | ⟨vb, hvb, hrv, hw⟩
              · exact Or.inl (le_trans h1 (hm1mono r))
              · subst hrp
                refine Or.inl ?_
                rw [getD_set_self marks r _ (by omega)]
                exact hw
              · exact Or.inr (Or.inr ⟨vb, hvb, hrv, hw⟩)
          obtain ⟨F, O, heq, hFlen, hFmono, hFsound, hFcur, hFdep, hFcl⟩ :=
            ih (prog.getD p ⟨.type_begin, 0⟩).value.toNat (id_upd prog p id)
              (marks.set p (id_upd prog p id))
              (if marks.getD p 0 = -1 then p :: out else out) depth
              hm1len hU0 hUM hdep hphi2 hpre2 hm1sound hcl2
          refine ⟨F, O, heq, hFlen, ?_, hFsound, ?_, hFdep, hFcl⟩
          · intro q
            exact le_trans (hm1mono q) (hFmono q)
          · intro hpl
            have hFm := hFmono p
            rw [getD_set_self marks p _ (by omega)] at hFm
            exact hFm
        · rw [if_neg hjp]
          by_cases hsl : types.getD p 0 < 0
          · rw [if_pos hsl]
            have hplt : p < prog.length := by
              by_contra hp
              rw [List.getD_eq_default _ _ (by omega)] at hsl
              norm_num at hsl
            obtain ⟨hm1len, hm1mono, hm1sound, hm1sum⟩ :=
              forward_marks_facts prog types start marks p (id_upd prog p id)
                (by omega) hfw hUM hsound hpre hml
            have hccp : can_cont prog types p := Or.inr (Or.inr hsl)
            have hsuccp1 : p + 1 ∈ succs prog p := by
              unfold succs
              rw [if_neg hbr, if_neg hjp]
              exact List.mem_cons_self _ _
            have hpre3 : Walk prog types start (p + 1)
                (id_upd prog (p + 1) (id_upd prog p id)) :=
              Walk.step p (id_upd prog p id) (p + 1) hpre hccp hsuccp1
            have hphi3 : trace_phi (max_id prog)
                (marks.set p (id_upd prog p id)) depth < f := by
              unfold trace_phi at hphi ⊢
              omega
            have hcl3 : ∀ q, q < prog.length →
                (marks.set p (id_upd prog p id)).getD q 0 ≠ -1 → can_cont prog types q →
                ∀ r, r ∈ succs prog q → r < prog.length →
                covers prog (p + 1) (id_upd prog p id) depth
                  (marks.set p (id_upd prog p id)) r
                  (id_upd prog r ((marks.set p (id_upd prog p id)).getD q 0)) := by
              intro q hql hqne hqcc r hr hrl
              by_cases hq : q = p
              · subst hq
                rw [getD_set_self marks q _ (by omega)]
                unfold succs at hr
                rw [if_neg hbr, if_neg hjp] at hr
                have hrt : r = q + 1 := by simpa using hr
                subst hrt
                exact Or.inr (Or.inl ⟨rfl, le_refl _⟩)
              · rw [getD_set_ne marks p q _ (fun he => hq he.symm)] at hqne ⊢
                have hold := hcl q hql hqne hqcc r hr hrl
                rcases hold with h1 | ⟨hrp, hw⟩ | ⟨vb, hvb, hrv, hw⟩
                · exact Or.inl (le_trans h1 (hm1mono r))
                · subst hrp
                  refine Or.inl ?_
                  rw [getD_set_self marks r _ (by omega)]
                  exact hw
                · exact Or.inr (Or.inr ⟨vb, hvb, hrv, hw⟩)
            obtain ⟨F, O, heq, hFlen, hFmono, hFsound, hFcur, hFdep, hFcl⟩ :=
              ih (p + 1) (id_upd prog p id) (marks.set p (id_upd prog p id))
                (if marks.getD p 0 = -1 then p :: out else out) depth
                hm1len hU0 hUM hdep hphi3 hpre3 hm1sound hcl3
            refine ⟨F, O, heq, hFlen, ?_, hFsound, ?_, hFdep, hFcl⟩
            · intro q
              exact le_trans (hm1mono q) (hFmono q)
            · intro hpl
              have hFm := hFmono p
              rw [getD_set_self marks p _ (by omega)] at hFm
              exact hFm
          · rw [if_neg hsl]
            have hnocc : ¬ can_cont prog types p := by
              intro hcc
              rcases hcc with h | h | h
              · exact hbr h
              · exact hjp h
              · exact hsl h
            rcases depth with _ | ⟨⟨id2, bp⟩, depth2⟩
            · by_cases hplt : p < prog.length
              · obtain ⟨hm1len, hm1mono, hm1sound, hm1sum⟩ :=
                  forward_marks_facts prog types start marks p (id_upd prog p id)
                    (by omega) hfw hUM hsound hpre hml
                refine ⟨_, _, rfl, hm1len, hm1mono, hm1sound, ?_, ?_, ?_⟩
                · intro hpl
                  rw [getD_set_self marks p _ (by omega)]
                · intro vb hvb
                  simp at hvb
                · intro q hql hqne hqcc r hr hrl
                  by_cases hq : q = p
                  · subst hq
                    exact absurd hqcc hnocc
                  · rw [getD_set_ne marks p q _ (fun he => hq he.symm)] at hqne ⊢
                    have hold := hcl q hql hqne hqcc r hr hrl
                    rcases hold with h1 | ⟨hrp, hw⟩ | ⟨vb, hvb, hrv, hw⟩
                    · exact le_trans h1 (hm1mono r)
                    · subst hrp
                      rw [getD_set_self marks r _ (by omega)]
                      exact hw
                    · simp at hvb
              · rw [set_out_of_range marks p _ (by omega)]
                refine ⟨_, _, rfl, hml, fun q => le_refl _, hsound, ?_, ?_, ?_⟩
                · intro hpl
                  omega
                · intro vb hvb
                  simp at hvb
                · intro q hql hqne hqcc r hr hrl
                  have hold := hcl q hql hqne hqcc r hr hrl
                  rcases hold with h1 | ⟨hrp, hw⟩ | ⟨vb, hvb, hrv, hw⟩
                  · exact h1
                  · subst hrp
                    omega
                  · simp at hvb
            · obtain ⟨hid2_0, hid2_M, hbpty, hWbp⟩ :=
                hdep (id2, bp) (List.mem_cons_self _ _)
              have hdep2 : ∀ vb ∈ depth2, 0 ≤ vb.1 ∧ vb.1 ≤ max_id prog ∧
                  (prog.getD vb.2 ⟨.type_begin, 0⟩).type = .type_branch ∧
                  Walk prog types start vb.2 vb.1 :=
                fun vb hvb => hdep vb (List.mem_cons_of_mem _ hvb)
              have hsuccb : (prog.getD bp ⟨.type_begin, 0⟩).value.toNat ∈
                  succs prog bp := by
                unfold succs
                rw [if_pos hbpty]
                simp
              have hpreb : Walk prog types start
                  (prog.getD bp ⟨.type_begin, 0⟩).value.toNat
                  (id_upd prog (prog.getD bp ⟨.type_begin, 0⟩).value.toNat id2) :=
                Walk.step bp id2 _ hWbp (Or.inl hbpty) hsuccb
              by_cases hplt : p < prog.length
              · obtain ⟨hm1len, hm1mono, hm1sound, hm1sum⟩ :=
                  forward_marks_facts prog types start marks p (id_upd prog p id)
                    (by omega) hfw hUM hsound hpre hml
                have hphib : trace_phi (max_id prog)
                    (marks.set p (id_upd prog p id)) depth2 < f := by
                  unfold trace_phi at hphi ⊢
                  simp only [List.length_cons] at hphi
                  omega
                have hclb : ∀ q, q < prog.length →
                    (marks.set p (id_upd prog p id)).getD q 0 ≠ -1 →
                    can_cont prog types q →
                    ∀ r, r ∈ succs prog q → r < prog.length →
                    covers prog (prog.getD bp ⟨.type_begin, 0⟩).value.toNat id2 depth2
                      (marks.set p (id_upd prog p id)) r
                      (id_upd prog r ((marks.set p (id_upd prog p id)).getD q 0)) := by
                  intro q hql hqne hqcc r hr hrl
                  by_cases hq : q = p
                  · subst hq
                    exact absurd hqcc hnocc
                  · rw [getD_set_ne marks p q _ (fun he => hq he.symm)] at hqne ⊢
                    have hold := hcl q hql hqne hqcc r hr hrl
                    rcases hold with h1 | ⟨hrp, hw⟩ | ⟨vb, hvb, hrv, hw⟩
                    · exact Or.inl (le_trans h1 (hm1mono r))
                    · subst hrp
                      refine Or.inl ?_
                      rw [getD_set_self marks r _ (by omega)]
                      exact hw
                    · rcases List.mem_cons.mp hvb with rfl | hvb2
                      · subst hrv
                        exact Or.inr (Or.inl ⟨rfl, hw⟩)
                      · exact Or.inr (Or.inr ⟨vb, hvb2, hrv, hw⟩)
                obtain ⟨F, O, heq, hFlen, hFmono, hFsound, hFcur, hFdep, hFcl⟩ :=
                  ih (prog.getD bp ⟨.type_begin, 0⟩).value.toNat id2
                    (marks.set p (id_upd prog p id))
                    (if marks.getD p 0 = -1 then p :: out else out) depth2
                    hm1len hid2_0 hid2_M hdep2 hphib hpreb hm1sound hclb
                refine ⟨F, O, heq, hFlen, ?_, hFsound, ?_, ?_, hFcl⟩
                · intro q
                  exact le_trans (hm1mono q) (hFmono q)
                · intro hpl
                  have hFm := hFmono p
                  rw [getD_set_self marks p _ (by omega)] at hFm
                  exact hFm
                · intro vb hvb r hrv hrl
                  rcases List.mem_cons.mp hvb with rfl | hvb2
                  · subst hrv
                    exact hFcur hrl
                  · exact hFdep vb hvb2 r hrv hrl
              · rw [set_out_of_range marks p _ (by omega)]
                have hphib : trace_phi (max_id prog) marks depth2 < f := by
                  unfold trace_phi at hphi ⊢
                  simp only [List.length_cons] at hphi
                  omega
                have hclb : ∀ q, q < prog.length → marks.getD q 0 ≠ -1 →
                    can_cont prog types q →
                    ∀ r, r ∈ succs prog q → r < prog.length →
                    covers prog (prog.getD bp ⟨.type_begin, 0⟩).value.toNat id2 depth2
                      marks r (id_upd prog r (marks.getD q 0)) := by
                  intro q hql hqne hqcc r hr hrl
                  have hold := hcl q hql hqne hqcc r hr hrl
                  rcases hold with h1 | ⟨hrp, hw⟩ | ⟨vb, hvb, hrv, hw⟩
                  · exact Or.inl h1
                  · subst hrp
                    omega
                  · rcases List.mem_cons.mp hvb with rfl | hvb2
                    · subst hrv
                      exact Or.inr (Or.inl ⟨rfl, hw⟩)
                    · exact Or.inr (Or.inr ⟨vb, hvb2, hrv, hw⟩)
                obtain ⟨F, O, heq, hFlen, hFmono, hFsound, hFcur, hFdep, hFcl⟩ :=
                  ih (prog.getD bp ⟨.type_begin, 0⟩).value.toNat id2 marks
                    (if marks.getD p 0 = -1 then p :: out else out) depth2
                    hml hid2_0 hid2_M hdep2 hphib hpreb hsound hclb
                refine ⟨F, O, heq, hFlen, hFmono, hFsound, ?_, ?_, hFcl⟩
                · intro hpl
                  omega
                · intro vb hvb r hrv hrl
                  rcases List.mem_cons.mp hvb with rfl | hvb2
                  · subst hrv
                    exact hFcur hrl
                  · exact hFdep vb hvb2 r hrv hrl
    · rw [if_neg hfw]
      have hUle : id_upd prog p id ≤ marks.getD p 0 := le_of_not_lt hfw
      rcases depth with _ | ⟨⟨id2, bp⟩, depth2⟩
      · refine ⟨marks, out, rfl, hml, fun q => le_refl _, hsound, ?_, ?_, ?_⟩
        · intro hpl
          exact hUle
        · intro vb hvb
          simp at hvb
        · intro q hql hqne hqcc r hr hrl
          have hold := hcl q hql hqne hqcc r hr hrl
          rcases hold with h1 | ⟨hrp, hw⟩ | ⟨vb, hvb, hrv, hw⟩
          · exact h1
          · subst hrp
            exact le_trans hw hUle
          · simp at hvb
      · obtain ⟨hid2_0, hid2_M, hbpty, hWbp⟩ :=
          hdep (id2, bp) (List.mem_cons_self _ _)
        have hdep2 : ∀ vb ∈ depth2, 0 ≤ vb.1 ∧ vb.1 ≤ max_id prog ∧
            (prog.getD vb.2 ⟨.type_begin, 0⟩).type = .type_branch ∧
            Walk prog types start vb.2 vb.1 :=
          fun vb hvb => hdep vb (List.mem_cons_of_mem _ hvb)
        have hsuccb : (prog.getD bp ⟨.type_begin, 0⟩).value.toNat ∈ succs prog bp := by
          unfold succs
          rw [if_pos hbpty]
          simp
        have hpreb : Walk prog types start
            (prog.getD bp ⟨.type_begin, 0⟩).value.toNat
            (id_upd prog (prog.getD bp ⟨.type_begin, 0⟩).value.toNat id2) :=
          Walk.step bp id2 _ hWbp (Or.inl hbpty) hsuccb
        have hphib : trace_phi (max_id prog) marks depth2 < f := by
          unfold trace_phi at hphi ⊢
          simp only [List.length_cons] at hphi
          omega
        have hclb : ∀ q, q < prog.length → marks.getD q 0 ≠ -1 →
            can_cont prog types q →
            ∀ r, r ∈ succs prog q → r < prog.length →
            covers prog (prog.getD bp ⟨.type_begin, 0⟩).value.toNat id2 depth2
              marks r (id_upd prog r (marks.getD q 0)) := by
          intro q hql hqne hqcc r hr hrl
          have hold := hcl q hql hqne hqcc r hr hrl
          rcases hold with h1 | ⟨hrp, hw⟩ | ⟨vb, hvb, hrv, hw⟩
          · exact Or.inl h1
          · subst hrp
            exact Or.inl (le_trans hw hUle)
          · rcases List.mem_cons.mp hvb with rfl | hvb2
            · subst hrv
              exact Or.inr (Or.inl ⟨rfl, hw⟩)
            · exact Or.inr (Or.inr ⟨vb, hvb2, hrv, hw⟩)
        obtain ⟨F, O, heq, hFlen, hFmono, hFsound, hFcur, hFdep, hFcl⟩ :=
          ih (prog.getD bp ⟨.type_begin, 0⟩).value.toNat id2 marks out depth2
            hml hid2_0 hid2_M hdep2 hphib hpreb hsound hclb
        refine ⟨F, O, heq, hFlen, hFmono, hFsound, ?_, ?_, hFcl⟩
        · intro hpl
          exact le_trans hUle (hFmono p)
        · intro vb hvb r hrv hrl
          rcases List.mem_cons.mp hvb with rfl | hvb2
          · subst hrv
            exact hFcur hrl
          · exact hFdep vb hvb2 r hrv hrl

/-- **C7** (confirmed).  For every program — including programs whose
branch/jump edges form loops — and every start position, the trace walker
terminates within its fuel bound (the monotone marks make every re-entry
carry a strictly higher accumulated id, so each position is re-entered at
most `max_id` times), and when it ends the mark of every visited position is
the maximum id accumulated along any ε-path to it: every mark is realized by
a walk, and every walk's accumulated id is dominated by the final mark. -/
theorem C7_trace_termination_max_id (prog : List stack_item) (types : List Int)
    (start : Nat) (htl : types.length = prog.length) :
    ∃ F O, trace_transitions prog types start = some (F, O) ∧
      (∀ q, q < prog.length → F.getD q 0 ≠ -1 →
        Walk prog types start q (F.getD q 0)) ∧
      (∀ q w, q < prog.length → Walk prog types start q w → w ≤ F.getD q 0) := by
  have hrep : ∀ q : Nat, q < prog.length →
      (List.replicate prog.length (-1 : Int)).getD q 0 = -1 := by
    intro q hq
    rw [List.getD_eq_getElem?_getD, List.getElem?_replicate, if_pos hq]
    rfl
  have hphi0 : trace_phi (max_id prog) (List.replicate prog.length (-1)) [] <
      trace_fuel prog := by
    unfold trace_phi trace_fuel
    rw [List.map_replicate, List.sum_replicate, List.length_nil]
    unfold trace_hr
    simp only [smul_eq_mul]
    have hm1 : max_id prog - -1 = max_id prog + 1 := by ring
    rw [hm1]
    exact Nat.lt_succ_of_le (le_of_eq (by ring))
  obtain ⟨F, O, heq, hFlen, hFmono, hFsound, hFcur, hFdep, hFcl⟩ :=
    trace_go_spec prog types start htl (trace_fuel prog) (start + 1) 0
      (List.replicate prog.length (-1)) [] []
      (by rw [List.length_replicate])
      (le_refl 0) (max_id_nonneg prog)
      (by intro vb hvb; simp at hvb)
      hphi0 Walk.init
      (by intro q hql hqne; exact absurd (hrep q hql) hqne)
      (by intro q hql hqne; exact absurd (hrep q hql) hqne)
  have hcompl : ∀ q w, Walk prog types start q w → q < prog.length →
      w ≤ F.getD q 0 := by
    intro q w hw
    induction hw with
    | init =>
      intro h1
      exact hFcur h1
    | step p' v q' hwp hcc hsucc ih =>
      intro hq'
      have hp' : p' < prog.length := can_cont_lt prog types p' htl hcc
      have hv : v ≤ F.getD p' 0 := ih hp'
      have hv0 : 0 ≤ v := walk_nonneg prog types start p' v hwp
      have hne : F.getD p' 0 ≠ -1 := by omega
      exact le_trans (id_upd_mono prog q' v (F.getD p' 0) hv)
        (hFcl p' hp' hne hcc q' hsucc hq')
  refine ⟨F, O, ?_, hFsound, fun q w hql hw => hcompl q w hw hql⟩
  unfold trace_transitions
  exact heq

/-- Witness for C7: the three-item program of the pattern `a` with the
analyzer's type column, traced from position 0. -/
theorem C7_witness :
    ∃ F O, trace_transitions
        [⟨.type_begin, 0⟩, ⟨.type_char, 97⟩, ⟨.type_end, 0⟩] [0, 1, 0] 0 =
        some (F, O) ∧
      (∀ q, q < ([⟨.type_begin, 0⟩, ⟨.type_char, 97⟩, ⟨.type_end, 0⟩] :
          List stack_item).length → F.getD q 0 ≠ -1 →
        Walk [⟨.type_begin, 0⟩, ⟨.type_char, 97⟩, ⟨.type_end, 0⟩] [0, 1, 0] 0 q
          (F.getD q 0)) ∧
      (∀ q w, q < ([⟨.type_begin, 0⟩, ⟨.type_char, 97⟩, ⟨.type_end, 0⟩] :
          List stack_item).length →
        Walk [⟨.type_begin, 0⟩, ⟨.type_char, 97⟩, ⟨.type_end, 0⟩] [0, 1, 0] 0 q w →
        w ≤ F.getD q 0) :=
  C7_trace_termination_max_id
    [⟨.type_begin, 0⟩, ⟨.type_char, 97⟩, ⟨.type_end, 0⟩] [0, 1, 0] 0 rfl
